import Mathlib

/-
Verification of the peer-to-peer node server and mining-coordination
subsystem of the pod repository (cmd/node/rpc/server.go and
cmd/kopach/main.go), via a shallow embedding in Lean 4.

Go strings are modelled as lists of byte values (Go strings are byte
sequences); Go maps are modelled as association lists whose key lists
are duplicate-free, matching the unique-key discipline of Go maps.
-/

set_option autoImplicit false

namespace Pod

/-- Go strings as byte sequences. -/
abbrev GoStr := List Nat

/-- chainhash.Hash: a 32-byte hash value, stored little-endian as in Go. -/
abbrev Hash := List Nat

/-- Validity of a hash value: 32 bytes, each below 256. -/
def ValidHash (h : Hash) : Prop := h.length = 32 ∧ ∀ b ∈ h, b < 256

instance (h : Hash) : Decidable (ValidHash h) := by
  unfold ValidHash; infer_instance

/-- The all-zero hash, the zero value of chainhash.Hash in Go. -/
def zeroHash : Hash := List.replicate 32 0

/-- Lower-case hex digit byte for a nibble, as used by Go encoding/hex. -/
def hexDigit (v : Nat) : Nat := if v < 10 then 48 + v else 87 + v

/-- encoding/hex EncodeToString: two lower-case hex digit bytes per byte. -/
def hexEncode (bs : List Nat) : GoStr :=
  bs.flatMap fun b => [hexDigit (b / 16), hexDigit (b % 16)]

/-- Value of one hex digit byte, accepting 0-9, a-f and A-F as Go does. -/
def hexVal (c : Nat) : Option Nat :=
  if 48 ≤ c ∧ c ≤ 57 then some (c - 48)
  else if 97 ≤ c ∧ c ≤ 102 then some (c - 87)
  else if 65 ≤ c ∧ c ≤ 70 then some (c - 55)
  else none

/-- encoding/hex Decode: fails on odd length or a non-hex byte. -/
def hexDecode : GoStr → Option (List Nat)
  | [] => some []
  | [_] => none
  | a :: b :: rest =>
    match hexVal a, hexVal b, hexDecode rest with
    | some x, some y, some r => some ((16 * x + y) :: r)
    | _, _, _ => none

/-- chainhash.Hash.String: hex encoding of the byte-reversed hash. -/
def hashString (h : Hash) : GoStr := hexEncode h.reverse

/-- chainhash.NewHashFromStr: rejects strings longer than 64 bytes, left-pads
an odd-length string with a zero digit, hex-decodes, right-aligns the decoded
bytes in a 32-byte zero array and reverses the result. -/
def newHashFromStr (s : GoStr) : Option Hash :=
  if 64 < s.length then none
  else
    let s2 := if s.length % 2 = 1 then 48 :: s else s
    match hexDecode s2 with
    | none => none
    | some bs => some ((List.replicate (32 - bs.length) 0 ++ bs).reverse)

/-- One step of strings.Split: prepend a byte to an already-split tail. -/
def splitSepCons (c sep : Nat) : List GoStr → List GoStr
  | [] => [[c]]
  | g :: gs => if c = sep then [] :: g :: gs else (c :: g) :: gs

/-- strings.Split on a single separator byte: yields one piece per gap. -/
def splitSep (sep : Nat) : GoStr → List GoStr
  | [] => [[]]
  | c :: rest => splitSepCons c sep (splitSep sep rest)

/-- Decimal digit bytes of a natural number, most significant first
(fuel-indexed so the definition is structural and kernel-evaluable). -/
def natDigitsAux : Nat → Nat → GoStr
  | 0, _ => []
  | fuel + 1, n =>
    if n < 10 then [48 + n] else natDigitsAux fuel (n / 10) ++ [48 + n % 10]

/-- Decimal digit bytes of a natural number, most significant first. -/
def natDigits (n : Nat) : GoStr := natDigitsAux (n + 1) n

/-- fmt %d formatting of an int64 value. -/
def intToGoStr (i : Int) : GoStr :=
  if i < 0 then 45 :: natDigits i.natAbs else natDigits i.toNat

/-- Is the byte an ASCII decimal digit. -/
def isDigitByte (c : Nat) : Bool := 48 ≤ c && c ≤ 57

/-- Numeric value of a digit-byte string, most significant first. -/
def digitsVal (l : GoStr) : Nat := l.foldl (fun a c => 10 * a + (c - 48)) 0

/-- strconv.ParseInt with base 10 and 64-bit size: optional sign, at least
one digit, all digits, and the value must fit in int64. -/
def parseInt64 (s : GoStr) : Option Int :=
  match s with
  | [] => none
  | c :: rest =>
    let neg : Bool := c = 45
    let digits : GoStr := if c = 45 ∨ c = 43 then rest else s
    if digits = [] then none
    else if digits.all isDigitByte then
      if neg then
        if digitsVal digits ≤ 2 ^ 63 then some (-(digitsVal digits : Int)) else none
      else
        if digitsVal digits ≤ 2 ^ 63 - 1 then some (digitsVal digits : Int) else none
    else none

/-- EncodeTemplateID (cmd/kopach/main.go): the previous-block hash rendered by
chainhash String, a dash (byte 45), then the Unix seconds rendered by %d. -/
def EncodeTemplateID (prevHash : Hash) (lastGeneratedUnix : Int) : GoStr :=
  hashString prevHash ++ 45 :: intToGoStr lastGeneratedUnix

/-- DecodeTemplateID (cmd/kopach/main.go): split on the dash, require exactly
two fields, parse the hash with NewHashFromStr and the time with ParseInt;
any failure is the invalid-longpollid error, modelled as none. -/
def DecodeTemplateID (s : GoStr) : Option (Hash × Int) :=
  match splitSep 45 s with
  | [f0, f1] =>
    match newHashFromStr f0 with
    | none => none
    | some h =>
      match parseInt64 f1 with
      | none => none
      | some i => some (h, i)
  | _ => none

/-- Association-list lookup, modelling Go map indexing m[k]. -/
def lookupA {α β : Type} [DecidableEq α] (k : α) : List (α × β) → Option β
  | [] => none
  | (k', v) :: rest => if k' = k then some v else lookupA k rest

/-- Association-list store, modelling Go map assignment m[k] = v. -/
def setA {α β : Type} [DecidableEq α] (k : α) (v : β) : List (α × β) → List (α × β)
  | [] => [(k, v)]
  | (k', v') :: rest => if k' = k then (k, v) :: rest else (k', v') :: setA k v rest

/-- Association-list removal, modelling Go delete(m, k). -/
def eraseA {α β : Type} [DecidableEq α] (k : α) : List (α × β) → List (α × β)
  | [] => []
  | (k', v') :: rest => if k' = k then rest else (k', v') :: eraseA k rest

/-- Go map increment m[k] += d, where a missing key reads as zero. -/
def bumpA {α : Type} [DecidableEq α] (k : α) (d : Int) (l : List (α × Int)) :
    List (α × Int) :=
  match lookupA k l with
  | some v => setA k (v + d) l
  | none => setA k d l

/-- Identity of a Go channel value: channels are distinct heap objects, so a
numeric tag suffices to model sharing and closing. -/
abbrev ChanId := Nat

/-- Inner level of GBTWorkState.NotifyMap: last-generated Unix time to channel. -/
abbrev LGMap := List (Int × ChanId)

/-- GBTWorkState.NotifyMap: previous-block hash to inner time-keyed channel map. -/
abbrev NotifyMap := List (Hash × LGMap)

/-- The channel registered in a notify map under a hash and a time, if any. -/
def regChan (m : NotifyMap) (h : Hash) (t : Int) : Option ChanId :=
  (lookupA h m).bind (lookupA t)

/-- GBTWorkState as seen by the long-poll path after a successful
UpdateBlockTemplate: the template's previous-block hash (equal to
state.prevHash at that point), the Unix seconds of state.LastGenerated, the
notification registry, and a counter supplying fresh channel identities. -/
structure GBTState where
  templatePrevBlock : Hash
  lastGeneratedUnix : Int
  notifyMap : NotifyMap
  nextChan : ChanId
deriving DecidableEq

/-- GBTWorkState.TemplateUpdateChan: return the channel registered under the
previous hash and last-generated time, creating the inner map and a fresh
channel where missing; existing channels are shared. -/
def TemplateUpdateChan (st : GBTState) (prevHash : Hash) (lastGenerated : Int) :
    ChanId × GBTState :=
  match lookupA prevHash st.notifyMap with
  | none =>
    let c := st.nextChan
    (c, { st with
            notifyMap := setA prevHash [(lastGenerated, c)] st.notifyMap,
            nextChan := c + 1 })
  | some channels =>
    match lookupA lastGenerated channels with
    | some c => (c, st)
    | none =>
      let c := st.nextChan
      (c, { st with
              notifyMap := setA prevHash (setA lastGenerated c channels) st.notifyMap,
              nextChan := c + 1 })

/-- GBTWorkState.NotifyLongPollers: close and drop every channel registered
under a hash other than the latest tip; then, unless the last-generated time
is the zero time (modelled as none), close and drop the channels under the
latest tip whose registered time is strictly earlier, removing the outer
entry when it empties.  Returns the new map and the closed channels. -/
def NotifyLongPollers (m : NotifyMap) (latestHash : Hash)
    (lastGenerated : Option Int) : NotifyMap × List ChanId :=
  let closedStale :=
    (m.filter fun e => decide (e.1 ≠ latestHash)).flatMap fun e => e.2.map Prod.snd
  let m1 := m.filter fun e => decide (e.1 = latestHash)
  match lastGenerated with
  | none => (m1, closedStale)
  | some lgUnix =>
    match lookupA latestHash m1 with
    | none => (m1, closedStale)
    | some channels =>
      let closedCur := (channels.filter fun p => decide (p.1 < lgUnix)).map Prod.snd
      let remaining := channels.filter fun p => decide (¬ p.1 < lgUnix)
      let m2 := if remaining.isEmpty then eraseA latestHash m1
                else setA latestHash remaining m1
      (m2, closedStale ++ closedCur)

/-- Outcome of the long-poll control path of HandleGetBlockTemplateLongPoll. -/
inductive LongPollOutcome where
  /-- Invalid long-poll ID: the current template is returned at once, with no
  SubmitOld flag. -/
  | immediateDefault
  /-- Stale long-poll ID: a template result is returned at once with the given
  SubmitOld flag. -/
  | immediate (submitOld : Bool)
  /-- Current long-poll ID: a channel is registered and the request blocks on
  it until notified. -/
  | blockOn (c : ChanId)
deriving DecidableEq

/-- HandleGetBlockTemplateLongPoll (cmd/kopach/main.go), after the leading
UpdateBlockTemplate has succeeded: decode the long-poll ID (decode failure
returns the current template immediately); if the decoded pair no longer
matches the current template, return immediately with SubmitOld true exactly
when the decoded previous hash equals the template's previous-block hash;
otherwise register a notification channel and block on it.  Errors from
BlockTemplateResult are abstracted away: the modelled outcome is the control
decision and the SubmitOld flag. -/
def HandleGetBlockTemplateLongPoll (st : GBTState) (longPollID : GoStr) :
    LongPollOutcome × GBTState :=
  match DecodeTemplateID longPollID with
  | none => (.immediateDefault, st)
  | some (prevHash, lastGenerated) =>
    if prevHash ≠ st.templatePrevBlock ∨ lastGenerated ≠ st.lastGeneratedUnix then
      (.immediate (decide (prevHash = st.templatePrevBlock)), st)
    else
      let r := TemplateUpdateChan st prevHash lastGenerated
      (.blockOn r.1, r.2)

/-- NodePeer, restricted to what the peer-state handlers read: the peer ID
(unique per connection), direction and persistence flags, the host part of
its address, its outbound group key, and the handshake/connection-request
state. -/
structure Peer where
  pid : Int
  inbound : Bool
  persistent : Bool
  host : GoStr
  groupKey : GoStr
  versionKnown : Bool
  hasConnReq : Bool
deriving DecidableEq

/-- PeerState (cmd/node/rpc/server.go): the three peer maps keyed by ID, the
ban map keyed by host, and the outbound group counters. -/
structure PeerState where
  inboundPeers : List (Int × Peer)
  outboundPeers : List (Int × Peer)
  persistentPeers : List (Int × Peer)
  banned : List (GoStr × Int)
  outboundGroups : List (GoStr × Int)
deriving DecidableEq

/-- The empty peer state built at the top of PeerHandler. -/
def emptyPeerState : PeerState := ⟨[], [], [], [], []⟩

/-- PeerState.Count: the summed sizes of the three peer maps. -/
def peerCount (st : PeerState) : Nat :=
  st.inboundPeers.length + st.outboundPeers.length + st.persistentPeers.length

/-- Which of the three peer maps a peer belongs to. -/
inductive MapSel where
  | inbound
  | outbound
  | persistent
deriving DecidableEq

/-- Read one of the three peer maps. -/
def getMap (st : PeerState) : MapSel → List (Int × Peer)
  | .inbound => st.inboundPeers
  | .outbound => st.outboundPeers
  | .persistent => st.persistentPeers

/-- Replace one of the three peer maps. -/
def setMap (st : PeerState) : MapSel → List (Int × Peer) → PeerState
  | .inbound, l => { st with inboundPeers := l }
  | .outbound, l => { st with outboundPeers := l }
  | .persistent, l => { st with persistentPeers := l }

/-- Map selection used by HandleDonePeerMsg: persistent first, then inbound,
else outbound. -/
def peerSel (sp : Peer) : MapSel :=
  if sp.persistent then .persistent else if sp.inbound then .inbound else .outbound

/-- Map selection used by HandleAddPeerMsg when inserting: inbound first,
then persistent, else outbound. -/
def addSel (sp : Peer) : MapSel :=
  if sp.inbound then .inbound else if sp.persistent then .persistent else .outbound

/-- Whether the host has an unexpired ban entry at the given wall-clock time
(the check at the top of HandleAddPeerMsg). -/
def bannedNowB (st : PeerState) (host : GoStr) (now : Int) : Bool :=
  match lookupA host st.banned with
  | some banEnd => decide (now < banEnd)
  | none => false

/-- Result of Node.HandleAddPeerMsg: the updated state, the boolean return
value, and whether the candidate peer was disconnected. -/
structure AddPeerResult where
  state : PeerState
  accepted : Bool
  disconnected : Bool
deriving DecidableEq

/-- Insertion tail of HandleAddPeerMsg, after the shutdown and ban checks:
reject when the peer maps are full, otherwise insert into the map matching
the peer's flags, bumping the outbound group counter for non-inbound peers. -/
def addAfterBanCheck (maxPeers : Int) (st : PeerState) (sp : Peer) : AddPeerResult :=
  if (peerCount st : Int) ≥ maxPeers then ⟨st, false, true⟩
  else if sp.inbound then
    ⟨{ st with inboundPeers := setA sp.pid sp st.inboundPeers }, true, false⟩
  else
    let st1 := { st with outboundGroups := bumpA sp.groupKey 1 st.outboundGroups }
    if sp.persistent then
      ⟨{ st1 with persistentPeers := setA sp.pid sp st1.persistentPeers }, true, false⟩
    else
      ⟨{ st1 with outboundPeers := setA sp.pid sp st1.outboundPeers }, true, false⟩

/-- Node.HandleAddPeerMsg: disconnect and reject while shutting down, when the
host has an unexpired ban entry (an expired entry is deleted and the check
passes), or when Count() has reached MaxPeers; otherwise insert the peer. -/
def HandleAddPeerMsg (shutdown : Bool) (now maxPeers : Int) (st : PeerState)
    (sp : Peer) : AddPeerResult :=
  if shutdown then ⟨st, false, true⟩
  else
    match lookupA sp.host st.banned with
    | some banEnd =>
      if now < banEnd then ⟨st, false, true⟩
      else addAfterBanCheck maxPeers { st with banned := eraseA sp.host st.banned } sp
    | none => addAfterBanCheck maxPeers st sp

/-- Result of Node.HandleDonePeerMsg: the updated state and whether a pending
connection request was handed to ConnManager.Disconnect. -/
structure DonePeerResult where
  state : PeerState
  connReqDisconnected : Bool
deriving DecidableEq

/-- Node.HandleDonePeerMsg: select the map matching the peer's flags; when the
ID is found there, decrement the outbound group counter for non-inbound peers
whose version is known, disconnect a pending connection request of a
non-inbound peer, and delete the entry; when it is not found, just disconnect
any pending connection request. -/
def HandleDonePeerMsg (st : PeerState) (sp : Peer) : DonePeerResult :=
  match lookupA sp.pid (getMap st (peerSel sp)) with
  | some _ =>
    let groups :=
      if !sp.inbound && sp.versionKnown then
        bumpA sp.groupKey (-1) st.outboundGroups
      else st.outboundGroups
    ⟨setMap { st with outboundGroups := groups } (peerSel sp)
        (eraseA sp.pid (getMap st (peerSel sp))),
      !sp.inbound && sp.hasConnReq⟩
  | none => ⟨st, sp.hasConnReq⟩

/-- Node.HandleBanPeerMsg: record host → now + BanDuration, overwriting any
existing entry for the host. -/
def HandleBanPeerMsg (now banDuration : Int) (st : PeerState) (sp : Peer) :
    PeerState :=
  { st with banned := setA sp.host (now + banDuration) st.banned }

/-- DisconnectPeer (cmd/node/rpc/server.go): remove the first entry whose
peer satisfies the predicate, returning the removed peer and the rest. -/
def disconnectFirst (pred : Peer → Bool) :
    List (Int × Peer) → Option (Peer × List (Int × Peer))
  | [] => none
  | (k, p) :: rest =>
    if pred p then some (p, rest)
    else (disconnectFirst pred rest).map fun q => (q.1, (k, p) :: q.2)

/-- HandleQuery RemoveNodeMsg: DisconnectPeer over the persistent map, with
the outbound group counter decremented for a removed peer. -/
def handleRemoveNodeMsg (pred : Peer → Bool) (st : PeerState) : PeerState :=
  match disconnectFirst pred st.persistentPeers with
  | some (p, rest) =>
    { st with persistentPeers := rest,
              outboundGroups := bumpA p.groupKey (-1) st.outboundGroups }
  | none => st

/-- One round of the DisconnectNodeMsg outbound loop: DisconnectPeer over the
outbound map with a group-count decrement, repeated until no peer matches. -/
def removeOutboundAll (pred : Peer → Bool) :
    List (Int × Peer) → List (GoStr × Int) → List (Int × Peer) × List (GoStr × Int)
  | [], groups => ([], groups)
  | (k, p) :: rest, groups =>
    if pred p then removeOutboundAll pred rest (bumpA p.groupKey (-1) groups)
    else
      let r := removeOutboundAll pred rest groups
      ((k, p) :: r.1, r.2)

/-- HandleQuery DisconnectNodeMsg: remove one matching inbound peer if any;
otherwise remove every matching outbound peer, decrementing group counts. -/
def handleDisconnectNodeMsg (pred : Peer → Bool) (st : PeerState) : PeerState :=
  match disconnectFirst pred st.inboundPeers with
  | some (_, rest) => { st with inboundPeers := rest }
  | none =>
    let r := removeOutboundAll pred st.outboundPeers st.outboundGroups
    { st with outboundPeers := r.1, outboundGroups := r.2 }

/-- The peer-state mutations serialized through the PeerHandler loop that
touch the three peer maps. -/
inductive PeerOp where
  | add (shutdown : Bool) (now maxPeers : Int) (sp : Peer)
  | done (sp : Peer)
  | ban (now banDuration : Int) (sp : Peer)
  | removeNode (pred : Peer → Bool)
  | disconnectNode (pred : Peer → Bool)

/-- Apply one peer-handler operation to the state. -/
def applyOp (st : PeerState) : PeerOp → PeerState
  | .add shutdown now maxPeers sp => (HandleAddPeerMsg shutdown now maxPeers st sp).state
  | .done sp => (HandleDonePeerMsg st sp).state
  | .ban now banDuration sp => HandleBanPeerMsg now banDuration st sp
  | .removeNode pred => handleRemoveNodeMsg pred st
  | .disconnectNode pred => handleDisconnectNodeMsg pred st

/-- Apply a sequence of peer-handler operations in order. -/
def applyOps (ops : List PeerOp) (st : PeerState) : PeerState :=
  ops.foldl applyOp st

/-- A peer ID appears in at most one of the three peer maps. -/
def exclusivePeerMaps (st : PeerState) : Prop :=
  ∀ pid : Int, ∀ s1 s2 : MapSel, s1 ≠ s2 →
    (lookupA pid (getMap st s1)).isSome → lookupA pid (getMap st s2) = none

/-- Every entry of every peer map is classified by cl into the map holding
it.  This is the inductive invariant behind peer-map exclusivity. -/
def placedBy (cl : Int → MapSel) (st : PeerState) : Prop :=
  ∀ sel : MapSel, ∀ e ∈ getMap st sel, cl e.1 = sel

/-- The environmental fact that makes exclusivity hold: peer IDs are
allocated once per connection (a process-wide atomic counter in the peer
package), so the classification a peer is inserted under is a function of
its ID.  An operation is coherent with cl when any peer it adds is
classified by cl as HandleAddPeerMsg would insert it. -/
def addCoherent (cl : Int → MapSel) : PeerOp → Prop
  | .add _ _ _ sp => cl sp.pid = addSel sp
  | _ => True

instance (cl : Int → MapSel) (op : PeerOp) : Decidable (addCoherent cl op) :=
  match op with
  | .add _ _ _ sp => inferInstanceAs (Decidable (cl sp.pid = addSel sp))
  | .done _ => inferInstanceAs (Decidable True)
  | .ban _ _ _ => inferInstanceAs (Decidable True)
  | .removeNode _ => inferInstanceAs (Decidable True)
  | .disconnectNode _ => inferInstanceAs (Decidable True)

/-- CFHeaderKV: a block hash paired with the committed filter header for that
block, one slot per checkpoint interval. -/
structure CFHeaderKV where
  blockHash : Hash
  filterHeader : Hash
deriving DecidableEq

/-- The zero value of CFHeaderKV, used for the placeholder entries appended
when the cache is grown. -/
def emptyKV : CFHeaderKV := ⟨zeroHash, zeroHash⟩

/-- Result of OnGetCFCheckpt: the filter headers placed in the reply message
and the cache slice stored back for the filter type. -/
structure CFCheckptReply where
  headers : List Hash
  cache : List CFHeaderKV
deriving DecidableEq

/-- The backward walk of OnGetCFCheckpt: starting at the end of the
authoritative hash list, decrement until the cached block hash at the probed
index matches; the result is one past the last matching index, or zero. -/
def forkScan (cache : List CFHeaderKV) (hashes : List Hash) : Nat → Nat
  | 0 => 0
  | i + 1 =>
    if (cache.getD i emptyKV).blockHash = hashes.getD i zeroHash then i + 1
    else forkScan cache hashes i

/-- Cache growth step of OnGetCFCheckpt: when the authoritative hash list is
longer than the cached slice, extend the cache in place with zero-valued
placeholder entries; otherwise the cache is used as is. -/
def growCache (cache0 : List CFHeaderKV) (blockHashes : List Hash) :
    List CFHeaderKV :=
  if cache0.length < blockHashes.length then
    cache0 ++ List.replicate (blockHashes.length - cache0.length) emptyKV
  else cache0

/-- NodePeer.OnGetCFCheckpt (cmd/node/rpc/server.go), given the authoritative
interval block hashes and a total filter-header fetch (the CFIndex lookup,
assumed to hold a header for every requested hash): grow the cache with zero
placeholders when the hash list is longer, walk backward to the fork index,
reply with cached headers below it and freshly fetched headers from it on,
and store the rewritten cache back only when the cache was grown. -/
def OnGetCFCheckpt (cache0 : List CFHeaderKV) (blockHashes : List Hash)
    (fetch : Hash → Hash) : CFCheckptReply :=
  let cache := growCache cache0 blockHashes
  let forkIdx := forkScan cache blockHashes blockHashes.length
  let cachedHeaders := (cache.take forkIdx).map CFHeaderKV.filterHeader
  let freshHashes := blockHashes.drop forkIdx
  let freshHeaders := freshHashes.map fetch
  let newCache :=
    if cache0.length < blockHashes.length then
      cache.take forkIdx ++ freshHashes.map fun h => ⟨h, fetch h⟩
    else cache0
  ⟨cachedHeaders ++ freshHeaders, newCache⟩

/-- Kopach worker state touched by the controller-election logic: the active
flag, the first-sender controller address (empty when none), and the UnixNano
arrival time of the last accepted job broadcast. -/
structure KWorker where
  active : Bool
  firstSender : GoStr
  lastSent : Int
deriving DecidableEq

/-- Events delivered to a kopach worker: a job broadcast, a pause broadcast, a
solution broadcast (each carrying the sender's claimed controller address
where the handler reads it), and a one-second watchdog tick.  Every event
carries its wall-clock time so traces can speak about message arrival. -/
inductive KEvent where
  | job (addr : GoStr) (now : Int)
  | pauseMsg (addr : GoStr) (now : Int)
  | solution (now : Int)
  | tick (now : Int)

/-- Result of one kopach event: the new worker state, whether the job was
forwarded to the local worker processes, and whether they were paused. -/
structure KStep where
  st : KWorker
  jobForwarded : Bool
  workersPaused : Bool
deriving DecidableEq

/-- Three seconds in nanoseconds, the watchdog silence threshold. -/
def silenceNanos : Int := 3 * 1000000000

/-- One step of the kopach worker (the handlers map and the controller
watcher goroutine in cmd/kopach/main.go): a job broadcast is dropped while
inactive or while another controller is active, and otherwise records the
sender and arrival time and is forwarded; a pause broadcast from the active
controller pauses the local workers without refreshing the arrival time; a
solution broadcast from any source clears the controller; a watchdog tick
clears the controller and pauses the workers when the last accepted job is
more than three seconds old. -/
def kstep (w : KWorker) : KEvent → KStep
  | .job addr now =>
    if !w.active then ⟨w, false, false⟩
    else if w.firstSender ≠ addr ∧ w.firstSender ≠ [] then ⟨w, false, false⟩
    else ⟨{ w with firstSender := addr, lastSent := now }, true, false⟩
  | .pauseMsg addr _ =>
    if w.firstSender = addr then ⟨w, false, true⟩ else ⟨w, false, false⟩
  | .solution _ => ⟨{ w with firstSender := [] }, false, false⟩
  | .tick now =>
    if silenceNanos < now - w.lastSent ∧ w.firstSender ≠ [] then
      ⟨{ w with firstSender := [] }, false, true⟩
    else ⟨w, false, false⟩

/-- Run a kopach worker over a trace of events. -/
def krun (w : KWorker) (events : List KEvent) : KWorker :=
  events.foldl (fun w e => (kstep w e).st) w

/-- Concrete host byte used in ban scenarios. -/
def hostH : GoStr := [104]

/-- Concrete persistent outbound peer used in concrete scenarios. -/
def perPeer : Peer := ⟨7, false, true, hostH, [103], true, false⟩

/-- A hash whose first byte is n and whose other bytes are zero. -/
def mkHash (n : Nat) : Hash := n :: List.replicate 31 0

/-- Concrete work state used in long-poll scenarios: template previous block
is the zero hash, last generated at Unix second 7, no registered channels. -/
def gbtW : GBTState := ⟨zeroHash, 7, [], 0⟩

/-- Concrete work state with one registered long-poll channel. -/
def gbtN : GBTState := ⟨zeroHash, 7, [(mkHash 1, [(3, 0)])], 1⟩

/-- A connected inbound peer with ID 1. -/
def inPeer1 : Peer := ⟨1, true, false, [104], [103], true, false⟩

/-- A second incoming inbound peer with ID 2. -/
def inPeer2 : Peer := ⟨2, true, false, [105], [103], true, false⟩

/-- Peer state holding exactly the one connected inbound peer. -/
def stOneInbound : PeerState := ⟨[(1, inPeer1)], [], [], [], []⟩

/-- Peer state holding the persistent outbound peer with its group counted. -/
def stOnePersistent : PeerState := ⟨[], [], [(7, perPeer)], [], [([103], 1)]⟩

/-- Filter-header fetch used in checkpoint scenarios. -/
def cfFetch : Hash → Hash := fun h => if h = mkHash 3 then mkHash 6 else zeroHash

/-- Checkpoint cache seeded before a reorg: block hashes 1 and 2 with filter
headers 4 and 5. -/
def cfCache0 : List CFHeaderKV := [⟨mkHash 1, mkHash 4⟩, ⟨mkHash 2, mkHash 5⟩]

/-- Authoritative hash list after a same-length reorg replacing index 1. -/
def cfHashes : List Hash := [mkHash 1, mkHash 3]

/-- Authoritative hash list after a reorg that also extends the chain. -/
def cfHashes3 : List Hash := [mkHash 1, mkHash 3, mkHash 7]

/-- Concrete notify map: two channels under hash 1 (times 3 and 9) and one
channel under hash 2 (time 5). -/
def mW : NotifyMap := [(mkHash 1, [(3, 0), (9, 1)]), (mkHash 2, [(5, 2)])]

/-- Concrete classification of peer IDs used in the exclusivity scenario. -/
def clW : Int → MapSel := fun pid => if pid = 7 then .persistent else .inbound

/-- Concrete operation sequence mixing adds, a departure and a ban. -/
def opsW : List PeerOp :=
  [.add false 0 10 inPeer1, .add false 0 10 perPeer, .done inPeer1,
    .ban 0 10 inPeer2, .add false 0 10 inPeer2]

/- ------------------------------------------------------------------ -/
/- Association-list lemmas                                            -/
/- ------------------------------------------------------------------ -/

theorem lookupA_setA_self {α β : Type} [DecidableEq α] (k : α) (v : β)
    (l : List (α × β)) : lookupA k (setA k v l) = some v := by
  induction l with
  | nil => simp [setA, lookupA]
  | cons e rest ih =>
    by_cases h : e.1 = k
    · simp [setA, h, lookupA]
    · simpa [setA, h, lookupA] using ih

theorem lookupA_setA_ne {α β : Type} [DecidableEq α] {k k' : α} (v : β)
    (l : List (α × β)) (h : k' ≠ k) : lookupA k' (setA k v l) = lookupA k' l := by
  have hkk : ¬ k = k' := fun hh => h hh.symm
  induction l with
  | nil => simp [setA, lookupA, hkk]
  | cons e rest ih =>
    by_cases he : e.1 = k
    · have he' : ¬ e.1 = k' := by rw [he]; exact hkk
      simp [setA, he, lookupA, he', hkk]
    · simp [setA, he, lookupA, ih]

theorem lookupA_mem {α β : Type} [DecidableEq α] {k : α} {v : β}
    {l : List (α × β)} (h : lookupA k l = some v) : (k, v) ∈ l := by
  induction l with
  | nil => simp [lookupA] at h
  | cons e rest ih =>
    by_cases he : e.1 = k
    · simp only [lookupA, if_pos he] at h
      obtain ⟨e1, e2⟩ := e
      have hv : e2 = v := by simpa using h
      have hk : e1 = k := by simpa using he
      subst hv
      subst hk
      exact List.mem_cons_self _ _
    · simp only [lookupA, if_neg he] at h
      exact List.mem_cons_of_mem _ (ih h)

theorem mem_setA {α β : Type} [DecidableEq α] {k : α} {v : β} {e : α × β}
    {l : List (α × β)} (h : e ∈ setA k v l) : e = (k, v) ∨ e ∈ l := by
  induction l with
  | nil => simpa [setA] using h
  | cons f rest ih =>
    by_cases hf : f.1 = k
    · rcases (by simpa [setA, hf] using h : e = (k, v) ∨ e ∈ rest) with h' | h'
      · exact Or.inl h'
      · exact Or.inr (List.mem_cons_of_mem _ h')
    · rcases (by simpa [setA, hf] using h : e = f ∨ e ∈ setA k v rest) with h' | h'
      · exact Or.inr (by simp [h'])
      · rcases ih h' with h'' | h''
        · exact Or.inl h''
        · exact Or.inr (List.mem_cons_of_mem _ h'')

theorem mem_eraseA {α β : Type} [DecidableEq α] {k : α} {e : α × β}
    {l : List (α × β)} (h : e ∈ eraseA k l) : e ∈ l := by
  induction l with
  | nil => simp [eraseA] at h
  | cons f rest ih =>
    by_cases hf : f.1 = k
    · exact List.mem_cons_of_mem _ (by simpa [eraseA, hf] using h)
    · rcases (by simpa [eraseA, hf] using h : e = f ∨ e ∈ eraseA k rest) with h' | h'
      · simp [h']
      · exact List.mem_cons_of_mem _ (ih h')

theorem lookupA_eq_none {α β : Type} [DecidableEq α] {k : α} {l : List (α × β)}
    (h : ∀ e ∈ l, e.1 ≠ k) : lookupA k l = none := by
  induction l with
  | nil => rfl
  | cons e rest ih =>
    simp only [lookupA, if_neg (h e (by simp))]
    exact ih fun f hf => h f (List.mem_cons_of_mem _ hf)

theorem lookupA_filter_key {α β : Type} [DecidableEq α] (p : α → Bool) (k : α)
    (l : List (α × β)) :
    lookupA k (l.filter fun e => p e.1) = if p k then lookupA k l else none := by
  induction l with
  | nil => simp [lookupA]
  | cons e rest ih =>
    by_cases hp : p e.1
    · by_cases he : e.1 = k
      · subst he
        simp [List.filter_cons, hp, lookupA, ih]
      · simp [List.filter_cons, hp, lookupA, he, ih]
    · by_cases he : e.1 = k
      · subst he
        simp only [List.filter_cons, Bool.not_eq_true] at *
        simp [hp, ih, lookupA]
      · simp only [List.filter_cons] at *
        simp [hp, ih, lookupA, he]

theorem lookupA_of_mem_nodup {α β : Type} [DecidableEq α] {k : α} {v : β}
    {l : List (α × β)} (hnd : (l.map Prod.fst).Nodup) (hm : (k, v) ∈ l) :
    lookupA k l = some v := by
  induction l with
  | nil => simp at hm
  | cons e rest ih =>
    simp only [List.map_cons, List.nodup_cons] at hnd
    rcases List.mem_cons.mp hm with hm' | hm'
    · simp [← hm', lookupA]
    · have hne : e.1 ≠ k := by
        intro hk
        exact hnd.1 (by simpa [hk] using List.mem_map_of_mem Prod.fst hm')
      simp only [lookupA, if_neg hne]
      exact ih hnd.2 hm'

/- ------------------------------------------------------------------ -/
/- Hex, digit and split lemmas (template-ID round trip)               -/
/- ------------------------------------------------------------------ -/

theorem hexVal_hexDigit {b : Nat} (hb : b < 16) : hexVal (hexDigit b) = some b := by
  rcases Nat.lt_or_ge b 10 with h | h
  · have hd : hexDigit b = 48 + b := by simp [hexDigit, h]
    rw [hd]
    unfold hexVal
    rw [if_pos (by omega)]
    congr 1
    omega
  · have hd : hexDigit b = 87 + b := by
      simp [hexDigit, show ¬ b < 10 by omega]
    rw [hd]
    unfold hexVal
    rw [if_neg (by omega), if_pos (by omega)]
    congr 1
    omega

theorem hexDigit_ne_sep (b : Nat) : hexDigit b ≠ 45 := by
  unfold hexDigit
  split <;> omega

theorem hexDecode_hexEncode (bs : List Nat) (h : ∀ b ∈ bs, b < 256) :
    hexDecode (hexEncode bs) = some bs := by
  induction bs with
  | nil => rfl
  | cons b rest ih =>
    have hb : b < 256 := h b (by simp)
    have h1 : b / 16 < 16 := by omega
    have h2 : b % 16 < 16 := by omega
    have ih2 := ih fun x hx => h x (by simp [hx])
    show hexDecode (hexDigit (b / 16) :: hexDigit (b % 16) :: hexEncode rest) = _
    simp only [hexDecode, hexVal_hexDigit h1, hexVal_hexDigit h2, ih2]
    have : 16 * (b / 16) + b % 16 = b := by omega
    rw [this]

theorem hexEncode_no_sep (bs : List Nat) : ∀ c ∈ hexEncode bs, c ≠ 45 := by
  intro c hc
  simp only [hexEncode, List.mem_flatMap] at hc
  obtain ⟨b, _, hc⟩ := hc
  rcases (by simpa using hc : c = hexDigit (b / 16) ∨ c = hexDigit (b % 16)) with rfl | rfl
  · exact hexDigit_ne_sep _
  · exact hexDigit_ne_sep _

theorem hexEncode_length (bs : List Nat) : (hexEncode bs).length = 2 * bs.length := by
  induction bs with
  | nil => rfl
  | cons b rest ih =>
    show (hexDigit (b / 16) :: hexDigit (b % 16) :: hexEncode rest).length = _
    simp [ih]
    omega

theorem splitSep_ne_nil (sep : Nat) (l : GoStr) : splitSep sep l ≠ [] := by
  cases l with
  | nil => simp [splitSep]
  | cons c rest =>
    show splitSepCons c sep (splitSep sep rest) ≠ []
    cases splitSep sep rest with
    | nil => simp [splitSepCons]
    | cons g gs =>
      by_cases h : c = sep <;> simp [splitSepCons, h]

theorem splitSep_no_sep (sep : Nat) (l : GoStr) (h : ∀ c ∈ l, c ≠ sep) :
    splitSep sep l = [l] := by
  induction l with
  | nil => rfl
  | cons c rest ih =>
    have hc : c ≠ sep := h c (by simp)
    have ih2 := ih fun x hx => h x (by simp [hx])
    show splitSepCons c sep (splitSep sep rest) = [c :: rest]
    rw [ih2]
    simp [splitSepCons, hc]

theorem splitSep_append (sep : Nat) (a b : GoStr) (ha : ∀ c ∈ a, c ≠ sep) :
    splitSep sep (a ++ sep :: b) = a :: splitSep sep b := by
  induction a with
  | nil =>
    show splitSepCons sep sep (splitSep sep b) = [] :: splitSep sep b
    obtain ⟨g, gs, hgs⟩ : ∃ g gs, splitSep sep b = g :: gs := by
      cases hb : splitSep sep b with
      | nil => exact absurd hb (splitSep_ne_nil sep b)
      | cons g gs => exact ⟨g, gs, rfl⟩
    rw [hgs]
    simp [splitSepCons]
  | cons c rest ih =>
    have hc : c ≠ sep := ha c (by simp)
    have ih2 := ih fun x hx => ha x (by simp [hx])
    show splitSepCons c sep (splitSep sep (rest ++ sep :: b)) = _
    rw [ih2]
    simp [splitSepCons, hc]

theorem digitsVal_append_one (xs : GoStr) (c : Nat) :
    digitsVal (xs ++ [c]) = 10 * digitsVal xs + (c - 48) := by
  simp [digitsVal, List.foldl_append]

theorem natDigitsAux_spec (fuel : Nat) :
    ∀ n, n < fuel →
      (∀ c ∈ natDigitsAux fuel n, isDigitByte c = true) ∧
        digitsVal (natDigitsAux fuel n) = n ∧ natDigitsAux fuel n ≠ [] := by
  induction fuel with
  | zero => omega
  | succ fuel ih =>
    intro n hn
    by_cases h10 : n < 10
    · refine ⟨?_, ?_, ?_⟩
      · intro c hc
        have : c = 48 + n := by simpa [natDigitsAux, h10] using hc
        subst this
        simp [isDigitByte]
        omega
      · simp only [natDigitsAux, if_pos h10, digitsVal, List.foldl_cons, List.foldl_nil]
        omega
      · simp [natDigitsAux, h10]
    · have hdiv : n / 10 < fuel := by omega
      obtain ⟨hd, hv, hne⟩ := ih (n / 10) hdiv
      refine ⟨?_, ?_, ?_⟩
      · intro c hc
        rcases (by simpa [natDigitsAux, h10] using hc :
            c ∈ natDigitsAux fuel (n / 10) ∨ c = 48 + n % 10) with h' | h'
        · exact hd c h'
        · subst h'
          simp [isDigitByte]
          omega
      · rw [natDigitsAux]
        rw [if_neg h10, digitsVal_append_one, hv]
        omega
      · simp [natDigitsAux, h10]

theorem natDigits_spec (n : Nat) :
    (∀ c ∈ natDigits n, isDigitByte c = true) ∧
      digitsVal (natDigits n) = n ∧ natDigits n ≠ [] :=
  natDigitsAux_spec (n + 1) n (by omega)

theorem digit_ne_sep {c : Nat} (h : isDigitByte c = true) : c ≠ 45 := by
  simp [isDigitByte] at h
  omega

theorem parseInt64_natDigits (n : Nat) (hb : n ≤ 2 ^ 63 - 1) :
    parseInt64 (natDigits n) = some (n : Int) := by
  obtain ⟨hd, hv, hne⟩ := natDigits_spec n
  obtain ⟨c, rest, hcr⟩ : ∃ c rest, natDigits n = c :: rest := by
    cases h : natDigits n with
    | nil => exact absurd h hne
    | cons c rest => exact ⟨c, rest, rfl⟩
  have hc : isDigitByte c = true := hd c (by simp [hcr])
  have hc45 : ¬ c = 45 := digit_ne_sep hc
  have hc43 : ¬ c = 43 := by
    simp [isDigitByte] at hc
    omega
  rw [hcr, parseInt64]
  simp only [if_neg (by tauto : ¬ (c = 45 ∨ c = 43))]
  rw [if_neg (by simp [← hcr, hne] : ¬ (c :: rest = []))]
  have hall : (c :: rest).all isDigitByte = true := by
    rw [← hcr]
    exact List.all_eq_true.mpr hd
  rw [if_pos hall]
  have hneg : (decide (c = 45)) = false := by simp [hc45]
  rw [hneg]
  simp only [Bool.false_eq_true, if_false]
  rw [show digitsVal (c :: rest) = n from by rw [← hcr]; exact hv]
  rw [if_pos hb]

theorem newHashFromStr_hashString (h : Hash) (hv : ValidHash h) :
    newHashFromStr (hashString h) = some h := by
  obtain ⟨hlen, hbytes⟩ := hv
  have hrl : h.reverse.length = 32 := by simp [hlen]
  have hlen2 : (hashString h).length = 64 := by
    simp [hashString, hexEncode_length, hrl]
  have hdec : hexDecode (hashString h) = some h.reverse :=
    hexDecode_hexEncode _ fun b hb => hbytes b (List.mem_reverse.mp hb)
  unfold newHashFromStr
  rw [if_neg (by omega)]
  simp only [hlen2]
  norm_num
  rw [hdec]
  simp [hrl]

/- ------------------------------------------------------------------ -/
/- C9: template-ID round trip                                         -/
/- ------------------------------------------------------------------ -/

/-- C9 counterexample: for a time with negative Unix seconds the encoded ID
contains two dashes, so DecodeTemplateID rejects it instead of returning the
encoded pair — the round trip is not the identity for arbitrary times. -/
theorem decode_encode_negative_time_fails :
    DecodeTemplateID (EncodeTemplateID zeroHash (-1)) = none ∧
      DecodeTemplateID (EncodeTemplateID zeroHash (-1)) ≠ some (zeroHash, -1) := by
  constructor
  · decide
  · decide

/-- C9 (amended): for every valid chain hash and every time whose Unix
seconds are non-negative (and representable in int64), DecodeTemplateID
applied to EncodeTemplateID returns exactly the hash and the Unix seconds;
for negative Unix seconds decoding fails. -/
theorem encode_decode_template_id (h : Hash) (t : Int) (hv : ValidHash h)
    (h0 : 0 ≤ t) (h1 : t ≤ 2 ^ 63 - 1) :
    DecodeTemplateID (EncodeTemplateID h t) = some (h, t) := by
  have hnn : ¬ t < 0 := by omega
  have hdig := (natDigits_spec t.toNat).1
  have hno45 : ∀ c ∈ natDigits t.toNat, c ≠ 45 := fun c hc => digit_ne_sep (hdig c hc)
  have hi : intToGoStr t = natDigits t.toNat := by simp [intToGoStr, hnn]
  have hsplit : splitSep 45 (EncodeTemplateID h t)
      = [hashString h, natDigits t.toNat] := by
    unfold EncodeTemplateID
    rw [hi,
      splitSep_append 45 (hashString h) (natDigits t.toNat)
        fun c hc => hexEncode_no_sep h.reverse c (by simpa [hashString] using hc),
      splitSep_no_sep 45 _ hno45]
  have htn : t.toNat ≤ 2 ^ 63 - 1 := by omega
  have hstep : DecodeTemplateID (EncodeTemplateID h t)
      = match newHashFromStr (hashString h) with
        | none => none
        | some hh =>
          match parseInt64 (natDigits t.toNat) with
          | none => none
          | some i => some (hh, i) := by
    unfold DecodeTemplateID
    rw [hsplit]
  rw [hstep, newHashFromStr_hashString h hv]
  show (match parseInt64 (natDigits t.toNat) with
        | none => none
        | some i => some (h, i)) = some (h, t)
  rw [parseInt64_natDigits t.toNat htn, Int.toNat_of_nonneg h0]

/-- C9 witness: the round trip evaluated at the zero hash and Unix second 5. -/
theorem encode_decode_template_id_witness :
    ValidHash zeroHash ∧ (0 : Int) ≤ 5 ∧ (5 : Int) ≤ 2 ^ 63 - 1 ∧
      DecodeTemplateID (EncodeTemplateID zeroHash 5) = some (zeroHash, 5) :=
  ⟨by decide, by decide, by decide,
    encode_decode_template_id zeroHash 5 (by decide) (by decide) (by decide)⟩

/- ------------------------------------------------------------------ -/
/- C6: repeated bans                                                  -/
/- ------------------------------------------------------------------ -/

/-- C6 counterexample: banning the same host at time 0 and again at time 5
with BanDuration 10 leaves expiry 15, beyond BanDuration from the first ban
call — the repeat ban resets the window rather than leaving it in force. -/
theorem ban_rebanned_extends_window :
    lookupA hostH
        (HandleBanPeerMsg 5 10
          (HandleBanPeerMsg 0 10 emptyPeerState perPeer) perPeer).banned
      = some 15 ∧ ¬ (15 : Int) ≤ 0 + 10 := by
  constructor
  · decide
  · decide

/-- C6 (amended): HandleBanPeerMsg overwrites the host's ban entry, so after
any call the recorded expiry is now + BanDuration of that latest call, and
entries for other hosts are unchanged; a repeat ban before expiry therefore
restarts the window from the most recent call. -/
theorem handleBanPeerMsg_overwrites (now banDuration : Int) (st : PeerState)
    (sp : Peer) :
    lookupA sp.host (HandleBanPeerMsg now banDuration st sp).banned
        = some (now + banDuration) ∧
      ∀ h : GoStr, h ≠ sp.host →
        lookupA h (HandleBanPeerMsg now banDuration st sp).banned
          = lookupA h st.banned :=
  ⟨lookupA_setA_self _ _ _, fun _ hh => lookupA_setA_ne _ _ hh⟩

/-- C6 witness: the overwrite evaluated at a concrete repeat ban. -/
theorem handleBanPeerMsg_overwrites_witness :
    lookupA hostH
        (HandleBanPeerMsg 5 10
          (HandleBanPeerMsg 0 10 emptyPeerState perPeer) perPeer).banned
      = some 15 ∧ ([103] : GoStr) ≠ hostH ∧
      lookupA [103]
          (HandleBanPeerMsg 5 10
            (HandleBanPeerMsg 0 10 emptyPeerState perPeer) perPeer).banned
        = lookupA ([103] : GoStr)
            (HandleBanPeerMsg 0 10 emptyPeerState perPeer).banned :=
  ⟨(handleBanPeerMsg_overwrites 5 10
      (HandleBanPeerMsg 0 10 emptyPeerState perPeer) perPeer).1, by decide,
    (handleBanPeerMsg_overwrites 5 10
      (HandleBanPeerMsg 0 10 emptyPeerState perPeer) perPeer).2 [103] (by decide)⟩

/- ------------------------------------------------------------------ -/
/- C10: TemplateUpdateChan sharing                                    -/
/- ------------------------------------------------------------------ -/

/-- C10: TemplateUpdateChan is idempotent — a second call with the same
previous hash and last-generated time returns the same channel and leaves the
state unchanged — and a call never closes, replaces, or removes a channel
already registered in the notify map. -/
theorem templateUpdateChan_idempotent (st : GBTState) (ph : Hash) (lg : Int) :
    (TemplateUpdateChan (TemplateUpdateChan st ph lg).2 ph lg).1
        = (TemplateUpdateChan st ph lg).1 ∧
      (TemplateUpdateChan (TemplateUpdateChan st ph lg).2 ph lg).2
        = (TemplateUpdateChan st ph lg).2 ∧
      ∀ h t c, regChan st.notifyMap h t = some c →
        regChan (TemplateUpdateChan st ph lg).2.notifyMap h t = some c := by
  rcases hm : lookupA ph st.notifyMap with _ | channels
  · have h1 : TemplateUpdateChan st ph lg
        = (st.nextChan,
            { st with notifyMap := setA ph [(lg, st.nextChan)] st.notifyMap,
                      nextChan := st.nextChan + 1 }) := by
      simp [TemplateUpdateChan, hm]
    have h2 : TemplateUpdateChan (TemplateUpdateChan st ph lg).2 ph lg
        = (st.nextChan, (TemplateUpdateChan st ph lg).2) := by
      rw [h1]
      simp [TemplateUpdateChan, lookupA_setA_self, lookupA]
    refine ⟨by rw [h2, h1], by rw [h2], ?_⟩
    intro h t c hreg
    have hne : h ≠ ph := fun he => by
      subst he
      simp [regChan, hm] at hreg
    rw [h1]
    simp only [regChan]
    rw [lookupA_setA_ne _ _ hne]
    exact hreg
  · rcases hc : lookupA lg channels with _ | c0
    · have h1 : TemplateUpdateChan st ph lg
          = (st.nextChan,
              { st with
                  notifyMap := setA ph (setA lg st.nextChan channels) st.notifyMap,
                  nextChan := st.nextChan + 1 }) := by
        simp [TemplateUpdateChan, hm, hc]
      have h2 : TemplateUpdateChan (TemplateUpdateChan st ph lg).2 ph lg
          = (st.nextChan, (TemplateUpdateChan st ph lg).2) := by
        rw [h1]
        simp [TemplateUpdateChan, lookupA_setA_self]
      refine ⟨by rw [h2, h1], by rw [h2], ?_⟩
      intro h t c hreg
      rw [h1]
      simp only [regChan]
      by_cases hne : h = ph
      · subst hne
        have ht : t ≠ lg := fun he => by
          subst he
          simp [regChan, hm, hc] at hreg
        rw [lookupA_setA_self]
        have hch : lookupA t channels = some c := by
          simpa [regChan, hm] using hreg
        simpa using lookupA_setA_ne (β := ChanId) st.nextChan channels ht ▸ hch
      · rw [lookupA_setA_ne _ _ hne]
        exact hreg
    · have h1 : TemplateUpdateChan st ph lg = (c0, st) := by
        simp [TemplateUpdateChan, hm, hc]
      refine ⟨by simp [h1], by simp [h1], ?_⟩
      intro h t c hreg
      rw [h1]
      exact hreg

/-- C10 witness: a fresh registration for a new hash shares nothing and the
previously registered channel stays registered. -/
theorem templateUpdateChan_idempotent_witness :
    (TemplateUpdateChan (TemplateUpdateChan gbtN (mkHash 2) 9).2 (mkHash 2) 9).1
        = (TemplateUpdateChan gbtN (mkHash 2) 9).1 ∧
      regChan gbtN.notifyMap (mkHash 1) 3 = some 0 ∧
      regChan (TemplateUpdateChan gbtN (mkHash 2) 9).2.notifyMap (mkHash 1) 3
        = some 0 :=
  ⟨(templateUpdateChan_idempotent gbtN (mkHash 2) 9).1, by decide,
    (templateUpdateChan_idempotent gbtN (mkHash 2) 9).2.2 (mkHash 1) 3 0 (by decide)⟩

/- ------------------------------------------------------------------ -/
/- C1: stale long-poll requests                                       -/
/- ------------------------------------------------------------------ -/

/-- C1: when the long-poll ID decodes to a pair that no longer matches the
current work state, HandleGetBlockTemplateLongPoll returns a template result
immediately — it neither registers nor blocks on a notification channel and
leaves the state unchanged — with SubmitOld true exactly when the decoded
previous hash equals the current template's previous-block hash. -/
theorem longPoll_stale_returns_immediately (st : GBTState) (longPollID : GoStr)
    (ph : Hash) (lg : Int)
    (hdec : DecodeTemplateID longPollID = some (ph, lg))
    (hstale : ph ≠ st.templatePrevBlock ∨ lg ≠ st.lastGeneratedUnix) :
    (HandleGetBlockTemplateLongPoll st longPollID).1
        = .immediate (decide (ph = st.templatePrevBlock)) ∧
      (HandleGetBlockTemplateLongPoll st longPollID).2 = st ∧
      ((HandleGetBlockTemplateLongPoll st longPollID).1 = .immediate true ↔
        ph = st.templatePrevBlock) := by
  have hrun : HandleGetBlockTemplateLongPoll st longPollID
      = (.immediate (decide (ph = st.templatePrevBlock)), st) := by
    unfold HandleGetBlockTemplateLongPoll
    rw [hdec]
    show (if ph ≠ st.templatePrevBlock ∨ lg ≠ st.lastGeneratedUnix then _ else _) = _
    rw [if_pos hstale]
  refine ⟨by rw [hrun], by rw [hrun], ?_⟩
  rw [hrun]
  simp

/-- C1 witness: a stale ID (matching hash, older generation time) against a
concrete work state returns immediately with SubmitOld true. -/
theorem longPoll_stale_witness :
    DecodeTemplateID [48, 48, 45, 53] = some (zeroHash, 5) ∧
      ((zeroHash : Hash) ≠ gbtW.templatePrevBlock ∨
        (5 : Int) ≠ gbtW.lastGeneratedUnix) ∧
      (HandleGetBlockTemplateLongPoll gbtW [48, 48, 45, 53]).1
        = .immediate true := by
  refine ⟨by decide, Or.inr (by decide), ?_⟩
  have h := longPoll_stale_returns_immediately gbtW [48, 48, 45, 53] zeroHash 5
    (by decide) (Or.inr (by decide))
  rw [h.1]
  decide

/- ------------------------------------------------------------------ -/
/- C8: kopach controller election                                     -/
/- ------------------------------------------------------------------ -/

/-- C8 counterexample: with controller X active (job accepted at time 0), a
pause message from X arrives at 2.5s and is recognized as coming from the
active controller, yet the watchdog tick at 3.5s still clears FirstSender:
only 1s has passed since the last message from X, but more than 3s since the
last job broadcast — the watchdog timer is refreshed by job broadcasts only,
so the clearing condition is not "no message from X for more than 3s". -/
theorem controller_cleared_despite_recent_message :
    (krun ⟨true, [], 0⟩ [.job [120] 0, .pauseMsg [120] 2500000000]).firstSender
        = [120] ∧
      (kstep (krun ⟨true, [], 0⟩ [.job [120] 0])
          (.pauseMsg [120] 2500000000)).workersPaused = true ∧
      (krun ⟨true, [], 0⟩
          [.job [120] 0, .pauseMsg [120] 2500000000, .tick 3500000000]).firstSender
        = [] ∧
      (3500000000 - 2500000000 : Int) ≤ silenceNanos := by
  refine ⟨by decide, by decide, by decide, by decide⟩

/-- C8 (amended): while a controller X is active, job broadcasts whose
controller address differs from X are never acted upon (state unchanged,
nothing forwarded); the controller marker moves away from X only when a
solution message arrives from any source or when a watchdog tick finds the
last accepted job broadcast more than three seconds old, in which case the
local workers are also paused.  Silence is measured from the last accepted
job broadcast: a pause message from X does not refresh the timer. -/
theorem controller_election_spec (w : KWorker) (X : GoStr) (e : KEvent)
    (hX : w.firstSender = X) (hne : X ≠ []) :
    (∀ Y now, e = .job Y now → Y ≠ X → kstep w e = ⟨w, false, false⟩) ∧
      ((kstep w e).st.firstSender ≠ X →
        (∃ now, e = .solution now) ∨
          ∃ now, e = .tick now ∧ silenceNanos < now - w.lastSent ∧
            (kstep w e).workersPaused = true) ∧
      (∀ now, e = .solution now → (kstep w e).st.firstSender = []) := by
  cases e with
  | job addr now =>
    refine ⟨?_, ?_, ?_⟩
    · intro Y now' heq hYX
      cases heq
      by_cases hact : w.active
      · have hcond : w.firstSender ≠ addr ∧ w.firstSender ≠ [] := by
          rw [hX]
          exact ⟨fun hh => hYX hh.symm, hne⟩
        simp only [kstep]
        rw [if_neg (by simp [hact]), if_pos hcond]
      · simp only [kstep]
        rw [if_pos (by simp [hact])]
    · intro hch
      exfalso
      apply hch
      by_cases hact : w.active
      · by_cases hcond : w.firstSender ≠ addr ∧ w.firstSender ≠ []
        · simp only [kstep]
          rw [if_neg (by simp [hact]), if_pos hcond]
          exact hX
        · have haddr : addr = X := by
            rcases not_and_or.mp hcond with h' | h'
            · have h2 : w.firstSender = addr := not_not.mp h'
              rw [hX] at h2
              exact h2.symm
            · exact absurd (hX ▸ not_not.mp h') hne
          simp only [kstep]
          rw [if_neg (by simp [hact]), if_neg hcond]
          exact haddr
      · simp only [kstep]
        rw [if_pos (by simp [hact])]
        exact hX
    · intro now' heq
      cases heq
  | pauseMsg addr now =>
    refine ⟨?_, ?_, ?_⟩
    · intro Y now' heq
      cases heq
    · intro hch
      exfalso
      apply hch
      by_cases hcond : w.firstSender = addr
      · simp only [kstep]
        rw [if_pos hcond]
        exact hX
      · simp only [kstep]
        rw [if_neg hcond]
        exact hX
    · intro now' heq
      cases heq
  | solution now =>
    refine ⟨?_, ?_, ?_⟩
    · intro Y now' heq
      cases heq
    · intro _
      exact Or.inl ⟨now, rfl⟩
    · intro now' heq
      cases heq
      rfl
  | tick now =>
    refine ⟨?_, ?_, ?_⟩
    · intro Y now' heq
      cases heq
    · intro hch
      by_cases hcond : silenceNanos < now - w.lastSent ∧ w.firstSender ≠ []
      · refine Or.inr ⟨now, rfl, hcond.1, ?_⟩
        simp only [kstep]
        rw [if_pos hcond]
      · exfalso
        apply hch
        simp only [kstep]
        rw [if_neg hcond]
        exact hX
    · intro now' heq
      cases heq

/-- C8 witness: a job broadcast from Y while X is the active controller is
dropped without any state change. -/
theorem controller_election_spec_witness :
    (⟨true, [120], 0⟩ : KWorker).firstSender = [120] ∧ ([120] : GoStr) ≠ [] ∧
      kstep ⟨true, [120], 0⟩ (.job [121] 1) = ⟨⟨true, [120], 0⟩, false, false⟩ :=
  ⟨rfl, by decide,
    (controller_election_spec ⟨true, [120], 0⟩ [120] (.job [121] 1) rfl
        (by decide)).1 [121] 1 rfl (by decide)⟩

/- ------------------------------------------------------------------ -/
/- Peer-map helper lemmas                                             -/
/- ------------------------------------------------------------------ -/

theorem lookupA_bumpA_self {α : Type} [DecidableEq α] (k : α) (d : Int)
    (l : List (α × Int)) :
    lookupA k (bumpA k d l) = some ((lookupA k l).getD 0 + d) := by
  unfold bumpA
  rcases h : lookupA k l with _ | v
  · rw [lookupA_setA_self]
    simp
  · rw [lookupA_setA_self]
    simp

theorem lookupA_eraseA_self {α β : Type} [DecidableEq α] {k : α}
    {l : List (α × β)} (hnd : (l.map Prod.fst).Nodup) :
    lookupA k (eraseA k l) = none := by
  induction l with
  | nil => rfl
  | cons e rest ih =>
    simp only [List.map_cons, List.nodup_cons] at hnd
    by_cases he : e.1 = k
    · simp only [eraseA, if_pos he]
      refine lookupA_eq_none fun f hf hfk => hnd.1 ?_
      have hfe : f.1 = e.1 := by rw [hfk, he]
      exact hfe ▸ List.mem_map_of_mem Prod.fst hf
    · simp only [eraseA, if_neg he, lookupA, if_neg he]
      exact ih hnd.2

theorem getMap_setMap_self (st : PeerState) (sel : MapSel)
    (l : List (Int × Peer)) : getMap (setMap st sel l) sel = l := by
  cases sel <;> rfl

theorem getMap_setMap_ne (st : PeerState) {s1 s2 : MapSel}
    (l : List (Int × Peer)) (h : s2 ≠ s1) :
    getMap (setMap st s1 l) s2 = getMap st s2 := by
  cases s1 <;> cases s2 <;> first | rfl | exact absurd rfl h

theorem getMap_setGroups (st : PeerState) (g : List (GoStr × Int))
    (sel : MapSel) : getMap { st with outboundGroups := g } sel = getMap st sel := by
  cases sel <;> rfl

theorem outboundGroups_setMap (st : PeerState) (sel : MapSel)
    (l : List (Int × Peer)) : (setMap st sel l).outboundGroups = st.outboundGroups := by
  cases sel <;> rfl

/- ------------------------------------------------------------------ -/
/- C4: HandleAddPeerMsg                                               -/
/- ------------------------------------------------------------------ -/

theorem addAfterBanCheck_spec (maxPeers : Int) (st : PeerState) (sp : Peer) :
    ((addAfterBanCheck maxPeers st sp).accepted = true ↔
        (peerCount st : Int) < maxPeers) ∧
      (addAfterBanCheck maxPeers st sp).disconnected
          = !(addAfterBanCheck maxPeers st sp).accepted ∧
      (addAfterBanCheck maxPeers st sp).state.banned = st.banned ∧
      ((addAfterBanCheck maxPeers st sp).accepted = false →
        (addAfterBanCheck maxPeers st sp).state = st) ∧
      ((addAfterBanCheck maxPeers st sp).accepted = true →
        getMap (addAfterBanCheck maxPeers st sp).state (addSel sp)
            = setA sp.pid sp (getMap st (addSel sp)) ∧
          (∀ sel, sel ≠ addSel sp →
            getMap (addAfterBanCheck maxPeers st sp).state sel = getMap st sel) ∧
          (sp.inbound = false →
            lookupA sp.groupKey
                (addAfterBanCheck maxPeers st sp).state.outboundGroups
              = some ((lookupA sp.groupKey st.outboundGroups).getD 0 + 1))) := by
  by_cases hfull : (peerCount st : Int) ≥ maxPeers
  · have hr : addAfterBanCheck maxPeers st sp = ⟨st, false, true⟩ := by
      simp [addAfterBanCheck, hfull]
    rw [hr]
    exact ⟨iff_of_false (by simp) (by omega), rfl, rfl, fun _ => rfl,
      fun hc => by cases hc⟩
  · by_cases hin : sp.inbound
    · have hr : addAfterBanCheck maxPeers st sp
          = ⟨{ st with inboundPeers := setA sp.pid sp st.inboundPeers },
              true, false⟩ := by
        simp [addAfterBanCheck, hfull, hin]
      have hsel : addSel sp = .inbound := by simp [addSel, hin]
      rw [hr]
      refine ⟨?_, ?_, ?_, ?_, ?_⟩
      · exact iff_of_true rfl (by omega)
      · rfl
      · rfl
      · intro hc
        cases hc
      · intro _
        refine ⟨by rw [hsel]; rfl, ?_, ?_⟩
        · intro sel hsel2
          rw [hsel] at hsel2
          cases sel with
          | inbound => exact absurd rfl hsel2
          | outbound => rfl
          | persistent => rfl
        · intro hni
          rw [hin] at hni
          cases hni
    · by_cases hper : sp.persistent
      · have hr : addAfterBanCheck maxPeers st sp
            = ⟨{ st with
                  outboundGroups := bumpA sp.groupKey 1 st.outboundGroups,
                  persistentPeers := setA sp.pid sp st.persistentPeers },
                true, false⟩ := by
          simp [addAfterBanCheck, hfull, hin, hper]
        have hsel : addSel sp = .persistent := by simp [addSel, hin, hper]
        rw [hr]
        refine ⟨?_, ?_, ?_, ?_, ?_⟩
        · exact iff_of_true rfl (by omega)
        · rfl
        · rfl
        · intro hc
          cases hc
        · intro _
          refine ⟨by rw [hsel]; rfl, ?_, fun _ => lookupA_bumpA_self _ _ _⟩
          intro sel hsel2
          rw [hsel] at hsel2
          cases sel with
          | inbound => rfl
          | outbound => rfl
          | persistent => exact absurd rfl hsel2
      · have hr : addAfterBanCheck maxPeers st sp
            = ⟨{ st with
                  outboundGroups := bumpA sp.groupKey 1 st.outboundGroups,
                  outboundPeers := setA sp.pid sp st.outboundPeers },
                true, false⟩ := by
          simp [addAfterBanCheck, hfull, hin, hper]
        have hsel : addSel sp = .outbound := by simp [addSel, hin, hper]
        rw [hr]
        refine ⟨?_, ?_, ?_, ?_, ?_⟩
        · exact iff_of_true rfl (by omega)
        · rfl
        · rfl
        · intro hc
          cases hc
        · intro _
          refine ⟨by rw [hsel]; rfl, ?_, fun _ => lookupA_bumpA_self _ _ _⟩
          intro sel hsel2
          rw [hsel] at hsel2
          cases sel with
          | inbound => rfl
          | outbound => exact absurd rfl hsel2
          | persistent => rfl

/-- C4: HandleAddPeerMsg accepts exactly when the server is not shutting
down, the host has no unexpired ban entry, and Count() is below MaxPeers;
every rejection disconnects the candidate and leaves the three peer maps and
the peer count unchanged; an expired ban entry is deleted; on success the
peer is inserted into exactly the map matching its flags and the outbound
group counter is incremented for non-inbound peers. -/
theorem handleAddPeerMsg_spec (shutdown : Bool) (now maxPeers : Int)
    (st : PeerState) (sp : Peer) (hnd : (st.banned.map Prod.fst).Nodup) :
    ((HandleAddPeerMsg shutdown now maxPeers st sp).accepted = true ↔
        (shutdown = false ∧ bannedNowB st sp.host now = false ∧
          (peerCount st : Int) < maxPeers)) ∧
      (HandleAddPeerMsg shutdown now maxPeers st sp).disconnected
          = !(HandleAddPeerMsg shutdown now maxPeers st sp).accepted ∧
      ((HandleAddPeerMsg shutdown now maxPeers st sp).accepted = false →
        (HandleAddPeerMsg shutdown now maxPeers st sp).state.inboundPeers
            = st.inboundPeers ∧
          (HandleAddPeerMsg shutdown now maxPeers st sp).state.outboundPeers
            = st.outboundPeers ∧
          (HandleAddPeerMsg shutdown now maxPeers st sp).state.persistentPeers
            = st.persistentPeers ∧
          peerCount (HandleAddPeerMsg shutdown now maxPeers st sp).state
            = peerCount st) ∧
      (shutdown = false → ∀ banEnd, lookupA sp.host st.banned = some banEnd →
        ¬ now < banEnd →
        lookupA sp.host
            (HandleAddPeerMsg shutdown now maxPeers st sp).state.banned = none) ∧
      ((HandleAddPeerMsg shutdown now maxPeers st sp).accepted = true →
        getMap (HandleAddPeerMsg shutdown now maxPeers st sp).state (addSel sp)
            = setA sp.pid sp (getMap st (addSel sp)) ∧
          (∀ sel, sel ≠ addSel sp →
            getMap (HandleAddPeerMsg shutdown now maxPeers st sp).state sel
              = getMap st sel) ∧
          (sp.inbound = false →
            lookupA sp.groupKey
                (HandleAddPeerMsg shutdown now maxPeers st sp).state.outboundGroups
              = some ((lookupA sp.groupKey st.outboundGroups).getD 0 + 1))) := by
  by_cases hsd : shutdown = true
  · have hr : HandleAddPeerMsg shutdown now maxPeers st sp = ⟨st, false, true⟩ := by
      simp [HandleAddPeerMsg, hsd]
    rw [hr]
    refine ⟨?_, ?_, ?_, ?_, ?_⟩
    · exact iff_of_false (by simp) (by simp [hsd])
    · rfl
    · exact fun _ => ⟨rfl, rfl, rfl, rfl⟩
    · intro hf
      rw [hf] at hsd
      cases hsd
    · intro hc
      cases hc
  · have hsd' : shutdown = false := by
      cases shutdown
      · rfl
      · exact absurd rfl hsd
    rcases hb : lookupA sp.host st.banned with _ | banEnd
    · have hr : HandleAddPeerMsg shutdown now maxPeers st sp
          = addAfterBanCheck maxPeers st sp := by
        simp [HandleAddPeerMsg, hsd', hb]
      have hbb : bannedNowB st sp.host now = false := by
        simp [bannedNowB, hb]
      obtain ⟨a1, a2, a3, a4, a5⟩ := addAfterBanCheck_spec maxPeers st sp
      rw [hr]
      refine ⟨by rw [a1]; simp [hsd', hbb], a2, ?_, ?_, a5⟩
      · intro hf
        rw [a4 hf]
        exact ⟨rfl, rfl, rfl, rfl⟩
      · intro _ banEnd hbe
        cases hbe
    · by_cases hlt : now < banEnd
      · have hr : HandleAddPeerMsg shutdown now maxPeers st sp
            = ⟨st, false, true⟩ := by
          simp [HandleAddPeerMsg, hsd', hb, hlt]
        have hbb : bannedNowB st sp.host now = true := by
          simp [bannedNowB, hb, hlt]
        rw [hr]
        refine ⟨iff_of_false (by simp) (by simp [hbb]), rfl,
          fun _ => ⟨rfl, rfl, rfl, rfl⟩, ?_, fun hc => by cases hc⟩
        intro _ banEnd2 hbe hnlt
        cases hbe
        exact absurd hlt hnlt
      · have hr : HandleAddPeerMsg shutdown now maxPeers st sp
            = addAfterBanCheck maxPeers
                { st with banned := eraseA sp.host st.banned } sp := by
          simp [HandleAddPeerMsg, hsd', hb, hlt]
        have hbb : bannedNowB st sp.host now = false := by
          simp [bannedNowB, hb, hlt]
        obtain ⟨a1, a2, a3, a4, a5⟩ := addAfterBanCheck_spec maxPeers
          { st with banned := eraseA sp.host st.banned } sp
        rw [hr]
        refine ⟨?_, a2, ?_, ?_, ?_⟩
        · rw [a1]
          constructor
          · intro hcm
            exact ⟨hsd', hbb, hcm⟩
          · intro hcm
            exact hcm.2.2
        · intro hf
          rw [a4 hf]
          exact ⟨rfl, rfl, rfl, rfl⟩
        · intro _ banEnd2 hbe hnlt
          rw [a3]
          exact lookupA_eraseA_self hnd
        · intro hacc
          obtain ⟨b1, b2, b3⟩ := a5 hacc
          exact ⟨b1, b2, b3⟩

/-- C4 witness: MaxPeers = 1 with one connected inbound peer: a second
incoming peer is rejected, disconnected, and the peer count stays 1. -/
theorem handleAddPeerMsg_spec_witness :
    (stOneInbound.banned.map Prod.fst).Nodup ∧
      (HandleAddPeerMsg false 0 1 stOneInbound inPeer2).accepted = false ∧
      (HandleAddPeerMsg false 0 1 stOneInbound inPeer2).disconnected = true ∧
      peerCount (HandleAddPeerMsg false 0 1 stOneInbound inPeer2).state = 1 := by
  have h := handleAddPeerMsg_spec false 0 1 stOneInbound inPeer2 (by decide)
  have hacc : (HandleAddPeerMsg false 0 1 stOneInbound inPeer2).accepted = false := by
    rcases hb : (HandleAddPeerMsg false 0 1 stOneInbound inPeer2).accepted with _ | _
    · rfl
    · exact absurd (h.1.mp hb).2.2 (by decide)
  refine ⟨by decide, hacc, ?_, ?_⟩
  · rw [h.2.1, hacc]
    rfl
  · rw [(h.2.2.1 hacc).2.2.2]
    decide

/- ------------------------------------------------------------------ -/
/- C5: HandleDonePeerMsg                                              -/
/- ------------------------------------------------------------------ -/

/-- C5 counterexample: removing a persistent outbound peer whose version is
known also decrements its outbound group counter — the decrement is not
restricted to non-persistent outbound peers. -/
theorem donePeer_decrements_for_persistent :
    perPeer.persistent = true ∧
      lookupA ([103] : GoStr) stOnePersistent.outboundGroups = some 1 ∧
      lookupA ([103] : GoStr)
          (HandleDonePeerMsg stOnePersistent perPeer).state.outboundGroups
        = some 0 := by
  refine ⟨by decide, by decide, by decide⟩

/-- C5 (amended): HandleDonePeerMsg removes the peer from the map matching
its classification (persistent first, then inbound, else outbound — under
the exclusivity invariant the only map that can hold its ID); when found, it
decrements the outbound group counter for every non-inbound peer whose
version is known, including persistent ones, and disconnects a pending
connection request of a non-inbound peer; when not found, the state is
unchanged and any pending connection request is disconnected. -/
theorem handleDonePeerMsg_spec (st : PeerState) (sp : Peer) :
    (∀ p, lookupA sp.pid (getMap st (peerSel sp)) = some p →
      getMap (HandleDonePeerMsg st sp).state (peerSel sp)
          = eraseA sp.pid (getMap st (peerSel sp)) ∧
        (∀ sel, sel ≠ peerSel sp →
          getMap (HandleDonePeerMsg st sp).state sel = getMap st sel) ∧
        (sp.inbound = false → sp.versionKnown = true →
          lookupA sp.groupKey (HandleDonePeerMsg st sp).state.outboundGroups
            = some ((lookupA sp.groupKey st.outboundGroups).getD 0 - 1)) ∧
        (sp.inbound = true ∨ sp.versionKnown = false →
          (HandleDonePeerMsg st sp).state.outboundGroups = st.outboundGroups) ∧
        (HandleDonePeerMsg st sp).connReqDisconnected
          = (!sp.inbound && sp.hasConnReq)) ∧
      (lookupA sp.pid (getMap st (peerSel sp)) = none →
        (HandleDonePeerMsg st sp).state = st ∧
          (HandleDonePeerMsg st sp).connReqDisconnected = sp.hasConnReq) := by
  rcases hl : lookupA sp.pid (getMap st (peerSel sp)) with _ | p
  · constructor
    · intro p hp
      cases hp
    · intro _
      have hr : HandleDonePeerMsg st sp = ⟨st, sp.hasConnReq⟩ := by
        simp [HandleDonePeerMsg, hl]
      rw [hr]
      exact ⟨rfl, rfl⟩
  · by_cases hdec : (!sp.inbound && sp.versionKnown) = true
    · have hr : HandleDonePeerMsg st sp
          = ⟨setMap
                { st with outboundGroups := bumpA sp.groupKey (-1) st.outboundGroups }
                (peerSel sp) (eraseA sp.pid (getMap st (peerSel sp))),
              !sp.inbound && sp.hasConnReq⟩ := by
        simp only [HandleDonePeerMsg, hl]
        rw [if_pos hdec]
      obtain ⟨hin, hvk⟩ : sp.inbound = false ∧ sp.versionKnown = true := by
        simpa using hdec
      rw [hr]
      refine ⟨fun p2 _ => ?_, fun hn => by cases hn⟩
      refine ⟨?_, ?_, ?_, ?_, rfl⟩
      · exact getMap_setMap_self _ _ _
      · intro sel hsel
        rw [getMap_setMap_ne _ _ hsel, getMap_setGroups]
      · intro _ _
        rw [outboundGroups_setMap]
        show lookupA sp.groupKey (bumpA sp.groupKey (-1) st.outboundGroups) = _
        rw [lookupA_bumpA_self]
        exact congrArg some (by omega)
      · intro hor
        exfalso
        rcases hor with h' | h'
        · rw [hin] at h'
          cases h'
        · rw [hvk] at h'
          cases h'
    · have hr : HandleDonePeerMsg st sp
          = ⟨setMap st (peerSel sp) (eraseA sp.pid (getMap st (peerSel sp))),
              !sp.inbound && sp.hasConnReq⟩ := by
        simp only [HandleDonePeerMsg, hl]
        rw [if_neg hdec]
      rw [hr]
      refine ⟨fun p2 _ => ?_, fun hn => by cases hn⟩
      refine ⟨getMap_setMap_self _ _ _, fun sel hsel => getMap_setMap_ne _ _ hsel,
        ?_, fun _ => outboundGroups_setMap _ _ _, rfl⟩
      intro hin hvk
      exact absurd (by simp [hin, hvk] : (!sp.inbound && sp.versionKnown) = true) hdec

/-- C5 witness for the amended statement: the persistent scenario evaluated
through the general theorem. -/
theorem handleDonePeerMsg_spec_witness :
    lookupA perPeer.pid (getMap stOnePersistent (peerSel perPeer)) = some perPeer ∧
      lookupA perPeer.groupKey
          (HandleDonePeerMsg stOnePersistent perPeer).state.outboundGroups
        = some ((lookupA perPeer.groupKey stOnePersistent.outboundGroups).getD 0 - 1) :=
  ⟨by decide,
    ((handleDonePeerMsg_spec stOnePersistent perPeer).1 perPeer (by decide)).2.2.1
      (by decide) (by decide)⟩

/- ------------------------------------------------------------------ -/
/- C7: checkpoint cache fork repair                                   -/
/- ------------------------------------------------------------------ -/

theorem forkScan_le (cache : List CFHeaderKV) (hashes : List Hash) (i : Nat) :
    forkScan cache hashes i ≤ i := by
  induction i with
  | zero => simp [forkScan]
  | succ i ih =>
    by_cases h : (cache.getD i emptyKV).blockHash = hashes.getD i zeroHash
    · simp only [forkScan]
      rw [if_pos h]
    · simp only [forkScan]
      rw [if_neg h]
      omega

theorem forkScan_no_match_above (cache : List CFHeaderKV) (hashes : List Hash)
    (i : Nat) : ∀ j, forkScan cache hashes i ≤ j → j < i →
      (cache.getD j emptyKV).blockHash ≠ hashes.getD j zeroHash := by
  induction i with
  | zero =>
    intro j _ h2
    omega
  | succ i ih =>
    intro j h1 h2
    by_cases h : (cache.getD i emptyKV).blockHash = hashes.getD i zeroHash
    · simp only [forkScan, if_pos h] at h1
      omega
    · simp only [forkScan, if_neg h] at h1
      by_cases hj : j = i
      · subst hj
        exact h
      · exact ih j h1 (by omega)

theorem forkScan_match_at (cache : List CFHeaderKV) (hashes : List Hash)
    (i : Nat) (hpos : 0 < forkScan cache hashes i) :
    (cache.getD (forkScan cache hashes i - 1) emptyKV).blockHash
      = hashes.getD (forkScan cache hashes i - 1) zeroHash := by
  induction i with
  | zero => simp [forkScan] at hpos
  | succ i ih =>
    by_cases h : (cache.getD i emptyKV).blockHash = hashes.getD i zeroHash
    · simp only [forkScan, if_pos h]
      simpa using h
    · simp only [forkScan, if_neg h] at hpos ⊢
      exact ih hpos

/-- C7 counterexample: after a same-length reorg (cached block hashes 1,2;
authoritative hashes 1,3) the reply correctly serves the cached header below
the fork and a freshly fetched header for the changed suffix, but the cache
is NOT updated in place: the stale entry for hash 2 remains, because the
write-back only happens when the hash list outgrows the cache. -/
theorem cfcheckpt_no_writeback_without_growth :
    (OnGetCFCheckpt cfCache0 cfHashes cfFetch).headers = [mkHash 4, mkHash 6] ∧
      (OnGetCFCheckpt cfCache0 cfHashes cfFetch).cache = cfCache0 ∧
      (OnGetCFCheckpt cfCache0 cfHashes cfFetch).cache.getD 1 emptyKV
        ≠ ⟨mkHash 3, mkHash 6⟩ := by
  refine ⟨by decide, by decide, by decide⟩

/-- C7 (amended): OnGetCFCheckpt walks backward from the end of the
authoritative hash list; the fork index k it finds is at most the list
length, every index from k on disagrees with the (grown) cache, and when
k > 0 the entry at k-1 agrees.  The reply serves cached filter headers for
indices below k and freshly fetched headers from k on.  The fresh entries
are written back into the cache only when the authoritative list is longer
than the cached list (the growth case); otherwise the stored cache is
returned unchanged. -/
theorem onGetCFCheckpt_spec (cache0 : List CFHeaderKV) (bh : List Hash)
    (fetch : Hash → Hash) :
    forkScan (growCache cache0 bh) bh bh.length ≤ bh.length ∧
      (∀ j, forkScan (growCache cache0 bh) bh bh.length ≤ j → j < bh.length →
        ((growCache cache0 bh).getD j emptyKV).blockHash ≠ bh.getD j zeroHash) ∧
      (0 < forkScan (growCache cache0 bh) bh bh.length →
        ((growCache cache0 bh).getD
            (forkScan (growCache cache0 bh) bh bh.length - 1) emptyKV).blockHash
          = bh.getD (forkScan (growCache cache0 bh) bh bh.length - 1) zeroHash) ∧
      (OnGetCFCheckpt cache0 bh fetch).headers
        = ((growCache cache0 bh).take
              (forkScan (growCache cache0 bh) bh bh.length)).map
            CFHeaderKV.filterHeader
          ++ (bh.drop (forkScan (growCache cache0 bh) bh bh.length)).map fetch ∧
      (bh.length ≤ cache0.length → (OnGetCFCheckpt cache0 bh fetch).cache = cache0) ∧
      (cache0.length < bh.length →
        (OnGetCFCheckpt cache0 bh fetch).cache
          = (growCache cache0 bh).take (forkScan (growCache cache0 bh) bh bh.length)
            ++ (bh.drop (forkScan (growCache cache0 bh) bh bh.length)).map
                fun h => ⟨h, fetch h⟩) := by
  refine ⟨forkScan_le _ _ _, forkScan_no_match_above _ _ _, forkScan_match_at _ _ _,
    rfl, ?_, ?_⟩
  · intro hle
    show (if cache0.length < bh.length then _ else cache0) = cache0
    rw [if_neg (by omega)]
  · intro hlt
    show (if cache0.length < bh.length then _ else cache0) = _
    rw [if_pos hlt]

/-- C7 witness: the growth-case write-back evaluated on a reorg that also
extends the chain by one checkpoint. -/
theorem onGetCFCheckpt_spec_witness :
    cfCache0.length < cfHashes3.length ∧
      (OnGetCFCheckpt cfCache0 cfHashes3 cfFetch).cache
        = (growCache cfCache0 cfHashes3).take
            (forkScan (growCache cfCache0 cfHashes3) cfHashes3 cfHashes3.length)
          ++ (cfHashes3.drop
              (forkScan (growCache cfCache0 cfHashes3) cfHashes3
                cfHashes3.length)).map fun h => ⟨h, cfFetch h⟩ :=
  ⟨by decide, (onGetCFCheckpt_spec cfCache0 cfHashes3 cfFetch).2.2.2.2.2 (by decide)⟩

/- ------------------------------------------------------------------ -/
/- C3: peer-map exclusivity                                           -/
/- ------------------------------------------------------------------ -/

theorem getMap_setBanned (st : PeerState) (b : List (GoStr × Int))
    (sel : MapSel) : getMap { st with banned := b } sel = getMap st sel := by
  cases sel <;> rfl

theorem mem_addAfterBanCheck (maxPeers : Int) (st : PeerState) (sp : Peer)
    (sel : MapSel) (e : Int × Peer)
    (he : e ∈ getMap (addAfterBanCheck maxPeers st sp).state sel) :
    e ∈ getMap st sel ∨ (e = (sp.pid, sp) ∧ sel = addSel sp) := by
  unfold addAfterBanCheck at he
  by_cases hfull : (peerCount st : Int) ≥ maxPeers
  · rw [if_pos hfull] at he
    exact Or.inl he
  · rw [if_neg hfull] at he
    by_cases hin : sp.inbound
    · rw [if_pos hin] at he
      have hsel : addSel sp = .inbound := by simp [addSel, hin]
      cases sel with
      | inbound =>
        simp only [getMap] at he
        rcases mem_setA he with h' | h'
        · exact Or.inr ⟨h', hsel.symm⟩
        · exact Or.inl h'
      | outbound => exact Or.inl he
      | persistent => exact Or.inl he
    · rw [if_neg hin] at he
      by_cases hper : sp.persistent
      · rw [if_pos hper] at he
        have hsel : addSel sp = .persistent := by simp [addSel, hin, hper]
        cases sel with
        | inbound => exact Or.inl he
        | outbound => exact Or.inl he
        | persistent =>
          simp only [getMap] at he
          rcases mem_setA he with h' | h'
          · exact Or.inr ⟨h', hsel.symm⟩
          · exact Or.inl h'
      · rw [if_neg hper] at he
        have hsel : addSel sp = .outbound := by simp [addSel, hin, hper]
        cases sel with
        | inbound => exact Or.inl he
        | outbound =>
          simp only [getMap] at he
          rcases mem_setA he with h' | h'
          · exact Or.inr ⟨h', hsel.symm⟩
          · exact Or.inl h'
        | persistent => exact Or.inl he

theorem mem_addPeer_maps (shutdown : Bool) (now maxPeers : Int) (st : PeerState)
    (sp : Peer) (sel : MapSel) (e : Int × Peer)
    (he : e ∈ getMap (HandleAddPeerMsg shutdown now maxPeers st sp).state sel) :
    e ∈ getMap st sel ∨ (e = (sp.pid, sp) ∧ sel = addSel sp) := by
  unfold HandleAddPeerMsg at he
  by_cases hsd : shutdown = true
  · rw [if_pos hsd] at he
    exact Or.inl he
  · rw [if_neg hsd] at he
    rcases hb : lookupA sp.host st.banned with _ | banEnd
    · simp only [hb] at he
      exact mem_addAfterBanCheck maxPeers st sp sel e he
    · simp only [hb] at he
      by_cases hlt : now < banEnd
      · rw [if_pos hlt] at he
        exact Or.inl he
      · rw [if_neg hlt] at he
        have := mem_addAfterBanCheck maxPeers
          { st with banned := eraseA sp.host st.banned } sp sel e he
        rwa [getMap_setBanned] at this

theorem mem_donePeer_maps (st : PeerState) (sp : Peer) (sel : MapSel)
    (e : Int × Peer)
    (he : e ∈ getMap (HandleDonePeerMsg st sp).state sel) : e ∈ getMap st sel := by
  rcases hl : lookupA sp.pid (getMap st (peerSel sp)) with _ | p
  · simp only [HandleDonePeerMsg, hl] at he
    exact he
  · simp only [HandleDonePeerMsg, hl] at he
    by_cases hsel : sel = peerSel sp
    · subst hsel
      rw [getMap_setMap_self] at he
      rw [getMap_setGroups] at he
      exact mem_eraseA he
    · rw [getMap_setMap_ne _ _ hsel, getMap_setGroups] at he
      exact he

theorem mem_disconnectFirst (pred : Peer → Bool) :
    ∀ (l : List (Int × Peer)) (p : Peer) (rest : List (Int × Peer)),
      disconnectFirst pred l = some (p, rest) → ∀ e ∈ rest, e ∈ l := by
  intro l
  induction l with
  | nil =>
    intro p rest h
    cases h
  | cons f fs ih =>
    intro p rest h
    unfold disconnectFirst at h
    by_cases hf : pred f.2
    · rw [if_pos hf] at h
      cases h
      intro e he
      exact List.mem_cons_of_mem _ he
    · rw [if_neg hf] at h
      rcases hd : disconnectFirst pred fs with _ | pr
      · rw [hd] at h
        cases h
      · obtain ⟨q, l2⟩ := pr
        rw [hd] at h
        simp only [Option.map_some'] at h
        cases h
        intro e he
        rcases List.mem_cons.mp he with h' | h'
        · simp [h']
        · exact List.mem_cons_of_mem _ (ih _ _ hd e h')

theorem mem_removeOutboundAll (pred : Peer → Bool) :
    ∀ (l : List (Int × Peer)) (groups : List (GoStr × Int)),
      ∀ e ∈ (removeOutboundAll pred l groups).1, e ∈ l := by
  intro l
  induction l with
  | nil =>
    intro groups e he
    simp [removeOutboundAll] at he
  | cons f fs ih =>
    intro groups e he
    unfold removeOutboundAll at he
    by_cases hf : pred f.2
    · rw [if_pos hf] at he
      exact List.mem_cons_of_mem _ (ih _ e he)
    · rw [if_neg hf] at he
      rcases List.mem_cons.mp he with h' | h'
      · simp [h']
      · exact List.mem_cons_of_mem _ (ih _ e h')

theorem placedBy_applyOp (cl : Int → MapSel) (st : PeerState) (op : PeerOp)
    (hco : addCoherent cl op) (h : placedBy cl st) : placedBy cl (applyOp st op) := by
  intro sel e he
  cases op with
  | add shutdown now maxPeers sp =>
    rcases mem_addPeer_maps shutdown now maxPeers st sp sel e he with h' | ⟨he2, hsel⟩
    · exact h sel e h'
    · rw [he2, hsel]
      exact hco
  | done sp => exact h sel e (mem_donePeer_maps st sp sel e he)
  | ban now banDuration sp =>
    rw [show applyOp st (.ban now banDuration sp) = HandleBanPeerMsg now banDuration st sp
        from rfl] at he
    rw [show getMap (HandleBanPeerMsg now banDuration st sp) sel = getMap st sel
        from by cases sel <;> rfl] at he
    exact h sel e he
  | removeNode pred =>
    rw [show applyOp st (.removeNode pred) = handleRemoveNodeMsg pred st from rfl] at he
    unfold handleRemoveNodeMsg at he
    rcases hd : disconnectFirst pred st.persistentPeers with _ | pr
    · simp only [hd] at he
      exact h sel e he
    · obtain ⟨p, rest⟩ := pr
      simp only [hd] at he
      cases sel with
      | inbound => exact h .inbound e he
      | outbound => exact h .outbound e he
      | persistent =>
        simp only [getMap] at he
        exact h .persistent e (mem_disconnectFirst pred st.persistentPeers p rest hd e he)
  | disconnectNode pred =>
    rw [show applyOp st (.disconnectNode pred) = handleDisconnectNodeMsg pred st
        from rfl] at he
    unfold handleDisconnectNodeMsg at he
    rcases hd : disconnectFirst pred st.inboundPeers with _ | pr
    · simp only [hd] at he
      cases sel with
      | inbound => exact h .inbound e he
      | outbound =>
        simp only [getMap] at he
        exact h .outbound e
          (mem_removeOutboundAll pred st.outboundPeers st.outboundGroups e he)
      | persistent => exact h .persistent e he
    · obtain ⟨p, rest⟩ := pr
      simp only [hd] at he
      cases sel with
      | inbound =>
        simp only [getMap] at he
        exact h .inbound e (mem_disconnectFirst pred st.inboundPeers p rest hd e he)
      | outbound => exact h .outbound e he
      | persistent => exact h .persistent e he

theorem exclusive_of_placedBy {cl : Int → MapSel} {st : PeerState}
    (h : placedBy cl st) : exclusivePeerMaps st := by
  intro pid s1 s2 hne hsome
  obtain ⟨p, hp⟩ := Option.isSome_iff_exists.mp hsome
  have h1 : cl pid = s1 := h s1 (pid, p) (lookupA_mem hp)
  cases hq : lookupA pid (getMap st s2) with
  | none => rfl
  | some q =>
    have h2 : cl pid = s2 := h s2 (pid, q) (lookupA_mem hq)
    exact absurd (h1.symm.trans h2) hne

theorem applyOps_placedBy (cl : Int → MapSel) (ops : List PeerOp) :
    ∀ st : PeerState, placedBy cl st → (∀ op ∈ ops, addCoherent cl op) →
      placedBy cl (applyOps ops st) := by
  induction ops with
  | nil =>
    intro st hst _
    exact hst
  | cons op rest ih =>
    intro st hst hco
    exact ih _ (placedBy_applyOp cl st op (hco op (by simp)) hst)
      fun o ho => hco o (by simp [ho])

/-- C3: starting from the empty PeerState, any sequence of peer-handler
operations (adds, departures, bans, query removals) keeps every peer ID in
at most one of the inbound, outbound and persistent maps, given that the
peers added share a per-ID classification (peer IDs are allocated once per
connection by an atomic counter, so a single ID never arrives with two
different inbound/persistent classifications). -/
theorem peer_map_exclusivity (cl : Int → MapSel) (ops : List PeerOp)
    (hco : ∀ op ∈ ops, addCoherent cl op) :
    exclusivePeerMaps (applyOps ops emptyPeerState) := by
  refine exclusive_of_placedBy (applyOps_placedBy cl ops emptyPeerState ?_ hco)
  intro sel e he
  cases sel <;> simp [emptyPeerState, getMap] at he

/-- C3 witness: a concrete add/add/done/ban/add sequence is coherent and its
final state satisfies exclusivity. -/
theorem peer_map_exclusivity_witness :
    (∀ op ∈ opsW, addCoherent clW op) ∧
      exclusivePeerMaps (applyOps opsW emptyPeerState) :=
  ⟨by decide, peer_map_exclusivity clW opsW (by decide)⟩

/- ------------------------------------------------------------------ -/
/- C2: NotifyLongPollers fan-out                                      -/
/- ------------------------------------------------------------------ -/

/-- C2: with a non-zero last-generated time, NotifyLongPollers closes exactly
the channels registered under a hash other than the latest tip or under the
latest tip with a strictly earlier registered time; each closed channel is
removed from the map, every other channel stays registered, and nothing new
appears.  Well-formedness of the Go maps is assumed: outer keys are distinct
and every channel value occurs at most once across the registry. -/
theorem notifyLongPollers_spec (m : NotifyMap) (latest : Hash) (lg : Int)
    (houter : (m.map Prod.fst).Nodup)
    (hchan : (m.flatMap fun e => e.2.map Prod.snd).Nodup) :
    (∀ h t c, regChan m h t = some c →
      ((c ∈ (NotifyLongPollers m latest (some lg)).2 ↔ (h ≠ latest ∨ t < lg)) ∧
        regChan (NotifyLongPollers m latest (some lg)).1 h t
          = if h = latest ∧ ¬ t < lg then some c else none)) ∧
      (∀ h t c, regChan (NotifyLongPollers m latest (some lg)).1 h t = some c →
        regChan m h t = some c) := by
  have hflat := List.nodup_flatMap.mp hchan
  have hinner : ∀ e ∈ m, (e.2.map Prod.snd).Nodup := hflat.1
  have hdisj : ∀ e1 e2 : Hash × LGMap, e1 ∈ m → e2 ∈ m → e1 ≠ e2 →
      ∀ c : ChanId, c ∈ e1.2.map Prod.snd → c ∈ e2.2.map Prod.snd → False := by
    intro e1 e2 h1 h2 hne c hc1 hc2
    exact hflat.2.forall (fun _ _ hd => List.Disjoint.symm hd) h1 h2 hne hc1 hc2
  have hm1keys : ∀ e ∈ m.filter (fun e => decide (e.1 = latest)), e.1 = latest := by
    intro e he
    simpa using (List.mem_filter.mp he).2
  have hm1nodup : ((m.filter fun e => decide (e.1 = latest)).map Prod.fst).Nodup :=
    List.Nodup.sublist ((m.filter_sublist).map Prod.fst) houter
  have hlat1 : lookupA latest (m.filter fun e => decide (e.1 = latest))
      = lookupA latest m := by
    have h0 := lookupA_filter_key (fun k : Hash => decide (k = latest)) latest m
    simpa using h0
  have hother1 : ∀ h : Hash, h ≠ latest →
      lookupA h (m.filter fun e => decide (e.1 = latest)) = none := by
    intro h hne
    have h0 := lookupA_filter_key (fun k : Hash => decide (k = latest)) h m
    simpa [hne] using h0
  have hext : ∀ {h t c}, regChan m h t = some c →
      ∃ inner, lookupA h m = some inner ∧ lookupA t inner = some c := by
    intro h t c hreg
    rcases hli : lookupA h m with _ | inner
    · simp [regChan, hli] at hreg
    · exact ⟨inner, rfl, by simpa [regChan, hli] using hreg⟩
  rcases hlm : lookupA latest m with _ | channels
  · have hres : NotifyLongPollers m latest (some lg)
        = (m.filter fun e => decide (e.1 = latest),
            (m.filter fun e => decide (e.1 ≠ latest)).flatMap fun e =>
              e.2.map Prod.snd) := by
      simp only [NotifyLongPollers, hlat1, hlm]
    constructor
    · intro h t c hreg
      obtain ⟨inner, hin, hic⟩ := hext hreg
      have hne : h ≠ latest := by
        intro he
        rw [he, hlm] at hin
        cases hin
      rw [hres]
      constructor
      · refine iff_of_true ?_ (Or.inl hne)
        refine List.mem_flatMap.mpr ⟨(h, inner), ?_, ?_⟩
        · exact List.mem_filter.mpr ⟨lookupA_mem hin, by simpa using hne⟩
        · exact List.mem_map.mpr ⟨(t, c), lookupA_mem hic, rfl⟩
      · rw [if_neg fun hand => hne hand.1]
        simp [regChan, hother1 h hne]
    · intro h t c hreg
      rw [hres] at hreg
      by_cases hh : h = latest
      · subst hh
        simp only [regChan, hlat1] at hreg
        simpa [regChan] using hreg
      · simp [regChan, hother1 h hh] at hreg
  · have hmem : (latest, channels) ∈ m := lookupA_mem hlm
    have hchnd : (channels.map Prod.snd).Nodup := hinner _ hmem
    have hrem : ∀ t : Int,
        lookupA t (channels.filter fun p => decide (¬ p.1 < lg))
          = if t < lg then none else lookupA t channels := by
      intro t
      have h0 := lookupA_filter_key (fun k : Int => decide (¬ k < lg)) t channels
      by_cases ht : t < lg
      · simpa [ht] using h0
      · simpa [ht] using h0
    have hnoneE : ∀ h : Hash, h ≠ latest →
        lookupA h (eraseA latest (m.filter fun e => decide (e.1 = latest))) = none := by
      intro h hh
      refine lookupA_eq_none ?_
      intro e he
      rw [hm1keys e (mem_eraseA he)]
      exact fun heq => hh heq.symm
    have hnoneS : ∀ (v : LGMap) (h : Hash), h ≠ latest →
        lookupA h (setA latest v (m.filter fun e => decide (e.1 = latest))) = none := by
      intro v h hh
      refine lookupA_eq_none ?_
      intro e he
      rcases mem_setA he with h' | h'
      · rw [h']
        exact fun heq => hh heq.symm
      · rw [hm1keys e h']
        exact fun heq => hh heq.symm
    by_cases hemp : (channels.filter fun p => decide (¬ p.1 < lg)).isEmpty
    · have hres : NotifyLongPollers m latest (some lg)
          = (eraseA latest (m.filter fun e => decide (e.1 = latest)),
              ((m.filter fun e => decide (e.1 ≠ latest)).flatMap fun e =>
                e.2.map Prod.snd)
                ++ (channels.filter fun p => decide (p.1 < lg)).map Prod.snd) := by
        simp only [NotifyLongPollers, hlat1, hlm, hemp, if_true]
      have hallLT : ∀ p ∈ channels, p.1 < lg := by
        intro p hp
        have h0 : (channels.filter fun p => decide (¬ p.1 < lg)) = [] :=
          List.isEmpty_iff.mp hemp
        have h1 := List.filter_eq_nil_iff.mp h0 p hp
        simpa using h1
      constructor
      · intro h t c hreg
        obtain ⟨inner, hin, hic⟩ := hext hreg
        rw [hres]
        by_cases hh : h = latest
        · subst hh
          rw [hlm] at hin
          cases hin
          have htc : (t, c) ∈ channels := lookupA_mem hic
          have htlt : t < lg := hallLT (t, c) htc
          constructor
          · refine iff_of_true ?_ (Or.inr htlt)
            refine List.mem_append.mpr (Or.inr ?_)
            exact List.mem_map.mpr
              ⟨(t, c), List.mem_filter.mpr ⟨htc, by simpa using htlt⟩, rfl⟩
          · rw [if_neg fun hand => hand.2 htlt]
            simp [regChan, lookupA_eraseA_self hm1nodup]
        · constructor
          · refine iff_of_true ?_ (Or.inl hh)
            refine List.mem_append.mpr (Or.inl ?_)
            refine List.mem_flatMap.mpr ⟨(h, inner), ?_, ?_⟩
            · exact List.mem_filter.mpr ⟨lookupA_mem hin, by simpa using hh⟩
            · exact List.mem_map.mpr ⟨(t, c), lookupA_mem hic, rfl⟩
          · rw [if_neg fun hand => hh hand.1]
            simp [regChan, hnoneE h hh]
      · intro h t c hreg
        rw [hres] at hreg
        by_cases hh : h = latest
        · subst hh
          simp [regChan, lookupA_eraseA_self hm1nodup] at hreg
        · simp [regChan, hnoneE h hh] at hreg
    · have hres : NotifyLongPollers m latest (some lg)
          = (setA latest (channels.filter fun p => decide (¬ p.1 < lg))
                (m.filter fun e => decide (e.1 = latest)),
              ((m.filter fun e => decide (e.1 ≠ latest)).flatMap fun e =>
                e.2.map Prod.snd)
                ++ (channels.filter fun p => decide (p.1 < lg)).map Prod.snd) := by
        simp only [NotifyLongPollers, hlat1, hlm, if_neg hemp]
      constructor
      · intro h t c hreg
        obtain ⟨inner, hin, hic⟩ := hext hreg
        rw [hres]
        by_cases hh : h = latest
        · subst hh
          rw [hlm] at hin
          cases hin
          have htc : (t, c) ∈ channels := lookupA_mem hic
          constructor
          · constructor
            · intro hcl
              rcases List.mem_append.mp hcl with hcs | hcc
              · exfalso
                obtain ⟨e', he', hce'⟩ := List.mem_flatMap.mp hcs
                have he'm : e' ∈ m := (List.mem_filter.mp he').1
                have he'ne : e'.1 ≠ h := by
                  simpa using (List.mem_filter.mp he').2
                refine hdisj e' (h, channels) he'm hmem ?_ c hce' ?_
                · intro heq
                  exact he'ne (by rw [heq])
                · exact List.mem_map.mpr ⟨(t, c), htc, rfl⟩
              · obtain ⟨p, hp, hpc⟩ := List.mem_map.mp hcc
                have hpch : p ∈ channels := (List.mem_filter.mp hp).1
                have hplt : p.1 < lg := by simpa using (List.mem_filter.mp hp).2
                have hpe : p = (t, c) :=
                  List.inj_on_of_nodup_map hchnd hpch htc hpc
                rw [hpe] at hplt
                exact Or.inr hplt
            · intro hor
              rcases hor with hne | hlt
              · exact absurd rfl hne
              · refine List.mem_append.mpr (Or.inr ?_)
                exact List.mem_map.mpr
                  ⟨(t, c), List.mem_filter.mpr ⟨htc, by simpa using hlt⟩, rfl⟩
          · by_cases ht : t < lg
            · rw [if_neg fun hand => hand.2 ht]
              simp only [regChan, lookupA_setA_self, Option.some_bind]
              rw [hrem t, if_pos ht]
            · rw [if_pos ⟨rfl, ht⟩]
              simp only [regChan, lookupA_setA_self, Option.some_bind]
              rw [hrem t, if_neg ht]
              exact hic
        · constructor
          · refine iff_of_true ?_ (Or.inl hh)
            refine List.mem_append.mpr (Or.inl ?_)
            refine List.mem_flatMap.mpr ⟨(h, inner), ?_, ?_⟩
            · exact List.mem_filter.mpr ⟨lookupA_mem hin, by simpa using hh⟩
            · exact List.mem_map.mpr ⟨(t, c), lookupA_mem hic, rfl⟩
          · rw [if_neg fun hand => hh hand.1]
            simp [regChan, hnoneS _ h hh]
      · intro h t c hreg
        rw [hres] at hreg
        by_cases hh : h = latest
        · subst hh
          simp only [regChan, lookupA_setA_self] at hreg
          simp only [Option.some_bind] at hreg
          rw [hrem t] at hreg
          by_cases ht : t < lg
          · rw [if_pos ht] at hreg
            cases hreg
          · rw [if_neg ht] at hreg
            simp [regChan, hlm]
            exact hreg
        · simp [regChan, hnoneS _ h hh] at hreg

/-- C2 witness: two channels under the tip (times 3 and 9) and one under
another hash; notifying with time 7 closes the time-3 channel and keeps the
time-9 channel registered. -/
theorem notifyLongPollers_spec_witness :
    ((mW.map Prod.fst).Nodup ∧ (mW.flatMap fun e => e.2.map Prod.snd).Nodup ∧
        regChan mW (mkHash 1) 3 = some 0) ∧
      (0 ∈ (NotifyLongPollers mW (mkHash 1) (some 7)).2 ↔
        (mkHash 1 ≠ mkHash 1 ∨ (3 : Int) < 7)) ∧
      regChan (NotifyLongPollers mW (mkHash 1) (some 7)).1 (mkHash 1) 3
        = if mkHash 1 = mkHash 1 ∧ ¬ (3 : Int) < 7 then some 0 else none := by
  have h := notifyLongPollers_spec mW (mkHash 1) 7 (by decide) (by decide)
  have h2 := h.1 (mkHash 1) 3 0 (by decide)
  exact ⟨⟨by decide, by decide, by decide⟩, h2.1, h2.2⟩

end Pod
